import Mathlib

/-!
Verification of the adaptive memory subsystem of the marketing multi-agent
system (`src/memory/MemoryManager.ts`).

The TypeScript source is shallowly embedded:
* JS numbers are modelled as `ℚ` (timestamps in milliseconds, scores,
  confidences), except for the relevance ranker whose `Math.exp` forces `ℝ`;
* JS objects carrying free-form payloads are modelled as association lists
  of `String × Value` (a JS object has no duplicate keys; missing properties
  read as `Value.undef`, mirroring `undefined`);
* `Array.prototype.sort` (ES2019 and later: a *stable* sort) with a numeric
  comparator is modelled by a stable insertion sort on lists;
* `async` methods that mutate `this.memory` are modelled as pure state
  transformers; a method that can throw is modelled with `Except`, the error
  payload carrying the partially mutated state at the point of the throw.
-/

namespace MarketingMemory

/-- A JS value, as far as the memory manager inspects values: strings,
numbers, booleans and `undefined`.  Reading an absent object property
yields `undef`, so `undef = undef` mirrors `undefined === undefined`. -/
inductive Value where
  | undef : Value
  | vstr : String → Value
  | vnum : ℚ → Value
  | vbool : Bool → Value
deriving DecidableEq

/-- A JS object as an association list (keys are unique in a JS object;
`Object.keys` enumerates them in insertion order). -/
abbrev Obj := List (String × Value)

/-- `o[k]` in JS: the stored value, or `undefined` when the key is absent. -/
def lookupJS (o : Obj) (k : String) : Value :=
  (o.lookup k).getD Value.undef

/-! ## Stable sorting

`Array.prototype.sort((a, b) => key(b) - key(a))` is, since ES2019, a stable
sort putting larger keys first.  A stable descending sort is modelled by
`sortDesc`: insertion sort where an element is inserted *before* the first
element whose key it reaches or exceeds.  Since `foldr` inserts the earliest
array element last, an element ties ahead of equal-key elements that came
later in the array — exactly stability.

`sortLex` is the specification-side companion: it sorts index-tagged
elements by the *strict total* order (key descending, original index
ascending).  `sortLex_map_snd` below proves the two agree, which is how
"ties broken by insertion order" statements are discharged. -/

section StableSort

variable {α : Type} {β : Type} [LinearOrder β]

/-- Insert `x` before the first element whose key is not larger
(stable descending insertion). -/
def insDesc (key : α → β) (x : α) : List α → List α
  | [] => [x]
  | y :: ys => if key y ≤ key x then x :: y :: ys else y :: insDesc key x ys

/-- Stable descending sort by `key` (the model of `.sort((a,b) => key b - key a)`). -/
def sortDesc (key : α → β) (l : List α) : List α :=
  l.foldr (insDesc key) []

/-- Insert `x` after every element whose key reaches or exceeds `key x`
(the position a stable sort gives to a *latest* arrival). -/
def insLast (key : α → β) (x : α) : List α → List α
  | [] => [x]
  | y :: ys => if key x ≤ key y then y :: insLast key x ys else x :: y :: ys

/-- Insert an index-tagged element by the strict order
(key descending, index ascending). -/
def insLex (key : α → β) (x : ℕ × α) : List (ℕ × α) → List (ℕ × α)
  | [] => [x]
  | y :: ys =>
    if key y.2 < key x.2 ∨ (key y.2 = key x.2 ∧ x.1 < y.1) then x :: y :: ys
    else y :: insLex key x ys

/-- Sort index-tagged elements by (key descending, index ascending): the
explicit "highest key first, ties in insertion order" ranking. -/
def sortLex (key : α → β) (l : List (ℕ × α)) : List (ℕ × α) :=
  l.foldr (insLex key) []

end StableSort

-- ===== DEFINITIONS CONTINUE BELOW / THEOREMS START AT MARKER =====

/-! ## Short-term capacity: `activeLeads` (claim C2)

`MemoryManager.storeShortTerm` pushes `item.data` onto
`shortTerm.activeLeads` for `active_lead`/`processed_lead` records and then
runs `enforceShortTermLimits`, whose `activeLeads` branch stable-sorts by
`(a, b) => b.score - a.score` and slices to the first 100 entries.  The
enforcer reads only `score`, so a lead is modelled as its score plus an
opaque payload. -/

/-- An entry of `short_term.activeLeads` (see §3 of the spec: entries
"have `score:number`"). -/
structure Lead where
  score : ℚ
  payload : String
deriving DecidableEq

/-- `MAX_SHORT_TERM_ITEMS` in `MemoryManager`. -/
def MAX_SHORT_TERM_ITEMS : ℕ := 100

/-- The `activeLeads` branch of `enforceShortTermLimits`: when more than
100 leads are held, stable-sort by descending score and keep the first 100. -/
def enforceActiveLeads (st : List Lead) : List Lead :=
  if MAX_SHORT_TERM_ITEMS < st.length then
    (sortDesc Lead.score st).take MAX_SHORT_TERM_ITEMS
  else st

/-- `storeShortTerm` for an `active_lead` record: push `item.data`, then
enforce the size limit. -/
def storeActiveLead (st : List Lead) (l : Lead) : List Lead :=
  enforceActiveLeads (st ++ [l])

/-- Specification-side selection: the (up to) 100 highest-score leads seen
so far, highest first, ties broken in favour of the earlier insertion
index. -/
def topLeadsSpec (ls : List Lead) : List Lead :=
  ((sortLex Lead.score (ls.enumFrom 0)).take MAX_SHORT_TERM_ITEMS).map Prod.snd

/-! ## Relevance ranking (claims C1 and C9)

`retrieve` wraps each hit as `{data, type}` and hands the list to
`rankByRelevance`, which scores each wrapper with `calculateRelevance`,
stable-sorts by `(a, b) => b.relevanceScore - a.relevanceScore` and slices
to 50.  `calculateRelevance` also probes `result.timestamp` and
`result.agentId`, so the wrapper is modelled with those optional fields.
`Math.exp` forces real-valued scores, hence the `noncomputable` markers. -/

/-- A retrieval wrapper as `calculateRelevance` sees it: a `type` tag, the
wrapped payload in `data`, and (generally absent) `timestamp` / `agentId`
properties.  `Option.none` models an absent (`undefined`) property; a
present `timestamp` is epoch milliseconds. -/
structure MemResult where
  rtype : Value
  timestamp : Option ℚ
  agentId : Value
  data : Option Obj
deriving DecidableEq

/-- `calculateRelevance(result, query)`, evaluated at clock value `now`
(epoch ms) by the manager owning `aid`.

Faithful points: the recency branch is guarded by JS truthiness
(`if (result.timestamp)`), so a timestamp of exactly `0` is skipped; the
recency term is `Math.max(0, 0.2 * Math.exp(-days/30))`; the field-match
loop adds `0.1` for every `key` of `query` with
`result.data && result.data[key] === query[key]`; the final score is
`Math.min(score, 1.0)`. -/
noncomputable def calculateRelevance (aid : String) (now : ℚ) (result : MemResult)
    (query : Obj) : ℝ :=
  let s1 : ℝ := 0.5
  let s2 : ℝ := if result.rtype = lookupJS query "type" then s1 + 0.3 else s1
  let s3 : ℝ :=
    match result.timestamp with
    | some ts =>
      if ts ≠ 0 then
        s2 + max 0 (0.2 * Real.exp (-((((now : ℝ) - (ts : ℝ)) / (1000 * 60 * 60 * 24)) / 30)))
      else s2
    | none => s2
  let s4 : ℝ := if result.agentId = Value.vstr aid then s3 + 0.1 else s3
  let s5 : ℝ := query.foldl
    (fun acc kv =>
      match result.data with
      | some d => if lookupJS d kv.1 = kv.2 then acc + 0.1 else acc
      | none => acc) s4
  min s5 1.0

/-- The scoring formula exactly as claim C1 states it: base `0.5`, `+0.3`
on type equality, `+0.2·exp(−days/30)` whenever the candidate *carries a
timestamp* (`0` otherwise), `+0.1` on agent match, `+0.1` per matching
query field, clamped to at most `1.0`.  (Claim-side definition, for
comparison with `calculateRelevance`.) -/
noncomputable def relevanceClaimC1 (aid : String) (now : ℚ) (result : MemResult)
    (query : Obj) : ℝ :=
  min
    ((0.5 : ℝ)
      + (if result.rtype = lookupJS query "type" then (0.3 : ℝ) else 0)
      + (match result.timestamp with
         | some ts => 0.2 * Real.exp (-((((now : ℝ) - (ts : ℝ)) / (1000 * 60 * 60 * 24)) / 30))
         | none => (0 : ℝ))
      + (if result.agentId = Value.vstr aid then (0.1 : ℝ) else 0)
      + (0.1 : ℝ) * (query.countP
          (fun kv =>
            match result.data with
            | some d => lookupJS d kv.1 = kv.2
            | none => false) : ℝ))
    1.0

/-- `relevanceClaimC1` with the timestamp condition amended to JS
truthiness: the recency bonus applies only to a *nonzero* timestamp. -/
noncomputable def relevanceAmendedC1 (aid : String) (now : ℚ) (result : MemResult)
    (query : Obj) : ℝ :=
  min
    ((0.5 : ℝ)
      + (if result.rtype = lookupJS query "type" then (0.3 : ℝ) else 0)
      + (match result.timestamp with
         | some ts =>
           if ts ≠ 0 then
             0.2 * Real.exp (-((((now : ℝ) - (ts : ℝ)) / (1000 * 60 * 60 * 24)) / 30))
           else (0 : ℝ)
         | none => (0 : ℝ))
      + (if result.agentId = Value.vstr aid then (0.1 : ℝ) else 0)
      + (0.1 : ℝ) * (query.countP
          (fun kv =>
            match result.data with
            | some d => lookupJS d kv.1 = kv.2
            | none => false) : ℝ))
    1.0

/-- `rankByRelevance(results, query)`: attach a `relevanceScore` to each
result, stable-sort descending by it, slice to the first 50. -/
noncomputable def rankByRelevance (aid : String) (now : ℚ) (results : List MemResult)
    (query : Obj) : List (MemResult × ℝ) :=
  (sortDesc Prod.snd
      (results.map (fun r => (r, calculateRelevance aid now r query)))).take 50

/-! ## Router: `store` and the per-tier dispatchers (claims C3, C8, C10)

`store(type, data)` wraps the caller's record in an envelope
`{id: uuidv4(), agentId, timestamp, ...data}` and dispatches on the tier;
each per-tier writer switches on `item.type` and pushes `item.data`.  The
dispatchers treat the payload `item.data` opaquely (the single exception is
`enforceShortTermLimits`, which reads `score` / `priority` / `timestamp`
of short-term entries to order evictions), so this model is parametric in
the payload type `P`, with the three eviction keys supplied as functions.
All call sites pass string type tags, so `item.type` is a `String`.

For entries lacking the eviction key, the JS comparator yields `NaN` and
the sort order is implementation-defined; the claims settled on this model
do not depend on that order. -/

section Router

variable {P : Type}

/-- The envelope `store` constructs:
`{id: uuidv4(), agentId: this.agentId, timestamp, ...data}`.  The spread
copies the caller's `type` and `data` properties next to the envelope
fields; only `itype` and `idata` are ever read by the dispatchers. -/
structure MemoryItem (P : Type) where
  mid : String
  agentId : String
  timestamp : ℚ
  itype : String
  idata : P
deriving DecidableEq

/-- `AgentMemory.shortTerm`. -/
structure RShort (P : Type) where
  currentContext : List P
  activeLeads : List P
  recentActions : List P
  workingMemory : List (String × P)
deriving DecidableEq

/-- `AgentMemory.longTerm`. -/
structure RLong (P : Type) where
  customerProfiles : List P
  campaignHistory : List P
  performanceMetrics : List P
  learningPatterns : List P
deriving DecidableEq

/-- `AgentMemory.episodic`. -/
structure REpisodic (P : Type) where
  successfulInteractions : List P
  problemResolutions : List P
  decisionOutcomes : List P
  contextualLearnings : List P
deriving DecidableEq

/-- `AgentMemory.semantic`. -/
structure RSemantic (P : Type) where
  domainKnowledge : List P
  relationships : List P
  concepts : List P
  rules : List P
deriving DecidableEq

/-- The four-tier `AgentMemory` store. -/
structure RMemory (P : Type) where
  shortTerm : RShort P
  longTerm : RLong P
  episodic : REpisodic P
  semantic : RSemantic P
deriving DecidableEq

inductive Tier where
  | short | long | episodic | semantic
deriving DecidableEq

/-- JS object property write `wm[k] = v`: replace in place when the key
exists, append otherwise (property insertion order). -/
def wmSet (wm : List (String × P)) (k : String) (v : P) : List (String × P) :=
  if wm.any (fun p => p.1 == k) then
    wm.map (fun p => if p.1 == k then (k, v) else p)
  else wm ++ [(k, v)]

/-- JS object property read `wm[k]`. -/
def wmGet (wm : List (String × P)) (k : String) : Option P :=
  match wm with
  | [] => none
  | p :: rest => if p.1 = k then some p.2 else wmGet rest k

/-- `enforceShortTermLimits`: each of the three list collections is
stable-sorted by its eviction key and truncated to 100 when it exceeds
100 entries (`currentContext` by descending `priority`, `activeLeads` by
descending `score`, `recentActions` by most recent `timestamp`). -/
def enforceShortTermLimitsR (prioOf scoreOf tsOf : P → ℚ) (s : RShort P) : RShort P :=
  { s with
    currentContext :=
      if MAX_SHORT_TERM_ITEMS < s.currentContext.length then
        (sortDesc prioOf s.currentContext).take MAX_SHORT_TERM_ITEMS
      else s.currentContext
    activeLeads :=
      if MAX_SHORT_TERM_ITEMS < s.activeLeads.length then
        (sortDesc scoreOf s.activeLeads).take MAX_SHORT_TERM_ITEMS
      else s.activeLeads
    recentActions :=
      if MAX_SHORT_TERM_ITEMS < s.recentActions.length then
        (sortDesc tsOf s.recentActions).take MAX_SHORT_TERM_ITEMS
      else s.recentActions }

/-- `storeShortTerm`: switch on `item.type`; unrecognized tags land in
`workingMemory[item.type]`; then enforce size limits. -/
def storeShortTermR (prioOf scoreOf tsOf : P → ℚ) (item : MemoryItem P)
    (s : RShort P) : RShort P :=
  enforceShortTermLimitsR prioOf scoreOf tsOf <|
    if item.itype = "conversation_context" then
      { s with currentContext := s.currentContext ++ [item.idata] }
    else if item.itype = "active_lead" ∨ item.itype = "processed_lead" then
      { s with activeLeads := s.activeLeads ++ [item.idata] }
    else if item.itype = "recent_action" then
      { s with recentActions := s.recentActions ++ [item.idata] }
    else
      { s with workingMemory := wmSet s.workingMemory item.itype item.idata }

/-- `storeLongTerm`: switch with no default branch — unrecognized tags are
dropped silently. -/
def storeLongTermR (item : MemoryItem P) (l : RLong P) : RLong P :=
  if item.itype = "customer_profile" then
    { l with customerProfiles := l.customerProfiles ++ [item.idata] }
  else if item.itype = "campaign" then
    { l with campaignHistory := l.campaignHistory ++ [item.idata] }
  else if item.itype = "performance_metric" then
    { l with performanceMetrics := l.performanceMetrics ++ [item.idata] }
  else if item.itype = "learning_pattern" then
    { l with learningPatterns := l.learningPatterns ++ [item.idata] }
  else l

/-- `storeEpisodic`: switch with no default branch. -/
def storeEpisodicR (item : MemoryItem P) (e : REpisodic P) : REpisodic P :=
  if item.itype = "interaction" ∨ item.itype = "successful_interaction" then
    { e with successfulInteractions := e.successfulInteractions ++ [item.idata] }
  else if item.itype = "problem_resolution" then
    { e with problemResolutions := e.problemResolutions ++ [item.idata] }
  else if item.itype = "decision_outcome" ∨ item.itype = "learning_outcome" then
    { e with decisionOutcomes := e.decisionOutcomes ++ [item.idata] }
  else if item.itype = "contextual_learning" then
    { e with contextualLearnings := e.contextualLearnings ++ [item.idata] }
  else e

/-- `storeSemantic`: switch with no default branch. -/
def storeSemanticR (item : MemoryItem P) (s : RSemantic P) : RSemantic P :=
  if item.itype = "domain_knowledge" then
    { s with domainKnowledge := s.domainKnowledge ++ [item.idata] }
  else if item.itype = "relationship" then
    { s with relationships := s.relationships ++ [item.idata] }
  else if item.itype = "concept" then
    { s with concepts := s.concepts ++ [item.idata] }
  else if item.itype = "business_rule" ∨ item.itype = "learning_pattern" ∨
      item.itype = "optimization_strategy" ∨ item.itype = "engagement_strategy" then
    { s with rules := s.rules ++ [item.idata] }
  else s

/-- The tier dispatch inside `store` (the `switch (type)` statement). -/
def storeDispatch (prioOf scoreOf tsOf : P → ℚ) (tier : Tier) (item : MemoryItem P)
    (m : RMemory P) : RMemory P :=
  match tier with
  | Tier.short => { m with shortTerm := storeShortTermR prioOf scoreOf tsOf item m.shortTerm }
  | Tier.long => { m with longTerm := storeLongTermR item m.longTerm }
  | Tier.episodic => { m with episodic := storeEpisodicR item m.episodic }
  | Tier.semantic => { m with semantic := storeSemanticR item m.semantic }

/-- `CONSOLIDATION_THRESHOLD` in `MemoryManager`. -/
def CONSOLIDATION_THRESHOLD : ℕ := 50

/-- `shouldConsolidate()`: the combined length of the three short-term
list collections (not `workingMemory`) strictly exceeds the threshold. -/
def shouldConsolidateR (m : RMemory P) : Bool :=
  CONSOLIDATION_THRESHOLD <
    m.shortTerm.currentContext.length + m.shortTerm.activeLeads.length +
      m.shortTerm.recentActions.length

/-- `store(type, data)`: build the envelope, dispatch, then consolidate
when `shouldConsolidate()` holds.  The consolidation pass itself is the
parameter `cf`; the returned flag records whether it ran. -/
def storeR (prioOf scoreOf tsOf : P → ℚ) (cf : RMemory P → RMemory P)
    (freshId aid : String) (now : ℚ) (tier : Tier) (rtype : String) (rdata : P)
    (m : RMemory P) : RMemory P × Bool :=
  let item : MemoryItem P :=
    { mid := freshId, agentId := aid, timestamp := now, itype := rtype, idata := rdata }
  let m2 := storeDispatch prioOf scoreOf tsOf tier item m
  (if shouldConsolidateR m2 then cf m2 else m2, shouldConsolidateR m2)

/-- Every payload reachable in some sub-collection of the store (the three
long-term and four each of episodic/semantic lists, the three short-term
lists and the `workingMemory` slots). -/
def allEntries (m : RMemory P) : List P :=
  m.shortTerm.currentContext ++ m.shortTerm.activeLeads ++ m.shortTerm.recentActions ++
    m.shortTerm.workingMemory.map Prod.snd ++
    m.longTerm.customerProfiles ++ m.longTerm.campaignHistory ++
    m.longTerm.performanceMetrics ++ m.longTerm.learningPatterns ++
    m.episodic.successfulInteractions ++ m.episodic.problemResolutions ++
    m.episodic.decisionOutcomes ++ m.episodic.contextualLearnings ++
    m.semantic.domainKnowledge ++ m.semantic.relationships ++
    m.semantic.concepts ++ m.semantic.rules

/-- The entries of the long-term tier, concatenated. -/
def longEntries (l : RLong P) : List P :=
  l.customerProfiles ++ l.campaignHistory ++ l.performanceMetrics ++ l.learningPatterns

/-- The entries of the episodic tier, concatenated. -/
def episodicEntries (e : REpisodic P) : List P :=
  e.successfulInteractions ++ e.problemResolutions ++ e.decisionOutcomes ++
    e.contextualLearnings

/-- The entries of the semantic tier, concatenated. -/
def semanticEntries (s : RSemantic P) : List P :=
  s.domainKnowledge ++ s.relationships ++ s.concepts ++ s.rules

/-- The recognized long-term type tags. -/
def longTags : List String :=
  ["customer_profile", "campaign", "performance_metric", "learning_pattern"]

/-- The recognized episodic type tags. -/
def episodicTags : List String :=
  ["interaction", "successful_interaction", "problem_resolution",
   "decision_outcome", "learning_outcome", "contextual_learning"]

/-- The recognized semantic type tags. -/
def semanticTags : List String :=
  ["domain_knowledge", "relationship", "concept", "business_rule",
   "learning_pattern", "optimization_strategy", "engagement_strategy"]

/-- The recognized short-term list type tags (everything else goes to
`workingMemory`). -/
def shortListTags : List String :=
  ["conversation_context", "active_lead", "processed_lead", "recent_action"]

end Router

/-! ## Consolidation and compression (claims C4, C5, C6, C7)

`consolidate()` runs, in order, `consolidateShortToLong`,
`extractPatternsFromEpisodic`, `updateSemanticKnowledge` (which ends with
`updateConceptRelationships`) and `applyMemoryDecay`.  `compressMemory()`
runs `compressEpisodicMemory`, `mergeSemanticConcepts` and
`cleanupRelationships`.

These operations read concrete fields of the stored records, so this model
uses one structure per record shape, with exactly the fields some modelled
operation reads.  `uuidv4()` calls that produce ids *read* by later code
(knowledge-node ids) are modelled by a threaded counter; `uuidv4()` ids
that no modelled operation ever reads (learning-pattern ids, relationship
ids, the envelope id) are omitted.  The memory state `CMemory` carries the
sub-collections these operations touch; the remaining sub-collections
(`campaignHistory`, `performanceMetrics`, `problemResolutions`,
`concepts`, `rules`, the other short-term collections) are never read nor
written by them and are omitted. -/

/-- An episodic `successfulInteractions` record as consolidation and
compression read it.  `metadata` stands for the JSON serialization of the
metadata object (`JSON.stringify` is modelled as the identity on this
field). -/
structure Interaction where
  itype : String
  outcome : String
  metadata : String
  sentiment : ℚ
  timestamp : ℚ
deriving DecidableEq

/-- A `LearningPattern` (uuid `id` omitted: no modelled operation reads it). -/
structure LearningPattern where
  pattern : String
  confidence : ℚ
  applications : ℕ
  successRate : ℚ
  lastUsed : ℚ
  context : List String
deriving DecidableEq

/-- A `KnowledgeNode` of `semantic.domainKnowledge`. -/
structure KnowledgeNode where
  nid : String
  concept : String
  description : String
  relationships : List String
  confidence : ℚ
  lastUpdated : ℚ
deriving DecidableEq

/-- A `semantic.relationships` entry (uuid `id` and `metadata` omitted:
no modelled operation reads them). -/
structure Relationship where
  source : String
  target : String
  rtype : String
  strength : ℚ
deriving DecidableEq

/-- An episodic `contextualLearnings` record. -/
structure ContextualLearning where
  context : String
  learning : String
  confidence : ℚ
  applications : ℕ
  timestamp : ℚ
deriving DecidableEq

/-- An episodic `decisionOutcomes` record.  An absent `decision` property
is modelled by the empty string (both are falsy for `decision || actionType`). -/
structure DecisionOutcome where
  decision : String
  actionType : String
  success : Bool
  impact : ℚ
deriving DecidableEq

/-- A `short_term.currentContext` conversation context, with the fields
promotion reads (`priority`, `messages.length`, `leadId`); a message is
abbreviated to its content string. -/
structure ChatContext where
  leadId : String
  priority : ℚ
  messages : List String
deriving DecidableEq

/-- The long-term customer profile produced by promotion, abbreviated to
the promoted lead id and the number of wrapped interaction records; the
remaining profile fields are constants (empty strings, defaults) that no
modelled operation reads. -/
structure CProfile where
  pid : String
  interactionCount : ℕ
deriving DecidableEq

/-- The sub-collections of `AgentMemory` that consolidation/compression
touch. -/
structure CMemory where
  currentContext : List ChatContext
  customerProfiles : List CProfile
  learningPatterns : List LearningPattern
  successfulInteractions : List Interaction
  decisionOutcomes : List DecisionOutcome
  contextualLearnings : List ContextualLearning
  domainKnowledge : List KnowledgeNode
  relationships : List Relationship
deriving DecidableEq

/-- The all-empty memory produced by `initializeMemory()`. -/
def emptyCMemory : CMemory :=
  { currentContext := [], customerProfiles := [], learningPatterns := [],
    successfulInteractions := [], decisionOutcomes := [], contextualLearnings := [],
    domainKnowledge := [], relationships := [] }

/-- `storeEpisodic` for an `interaction`/`successful_interaction` record:
push `item.data` onto `successfulInteractions`. -/
def storeSuccessfulInteraction (m : CMemory) (i : Interaction) : CMemory :=
  { m with successfulInteractions := m.successfulInteractions ++ [i] }

/-- Step 1 of `consolidate`: `consolidateShortToLong` promotes every
context with `priority > 7 || messages.length > 10` into a
`customerProfiles` entry and keeps only the non-promoted contexts. -/
def consolidateShortToLong (m : CMemory) : CMemory :=
  let important := m.currentContext.filter
    (fun c => decide (7 < c.priority ∨ 10 < c.messages.length))
  { m with
    customerProfiles := m.customerProfiles ++
      important.map (fun c => { pid := c.leadId, interactionCount := c.messages.length }),
    currentContext := m.currentContext.filter
      (fun c => decide (c.priority ≤ 7 ∧ c.messages.length ≤ 10)) }

/-- The grouping key `` `${interaction.type}_${interaction.outcome}` ``. -/
def interKey (i : Interaction) : String :=
  i.itype ++ "_" ++ i.outcome

/-- `outcome === 'positive' || outcome === 'conversion'`. -/
def isSuccessOutcome (i : Interaction) : Bool :=
  i.outcome == "positive" || i.outcome == "conversion"

/-- The per-key accumulator of `findInteractionPatterns`. -/
structure PatAcc where
  count : ℕ
  successCount : ℕ
  contexts : List String
deriving DecidableEq

/-- One `forEach` iteration of `findInteractionPatterns` on the entry of
the interaction's key: bump `count`, bump `successCount` on success, push
the metadata. -/
def bumpPat (i : Interaction) (p : PatAcc) : PatAcc :=
  { count := p.count + 1,
    successCount := if isSuccessOutcome i then p.successCount + 1 else p.successCount,
    contexts := p.contexts ++ [i.metadata] }

/-- Upsert into the insertion-ordered `patternMap` (`Map<string, any>`). -/
def addInteraction (i : Interaction) : List (String × PatAcc) → List (String × PatAcc)
  | [] => [(interKey i, bumpPat i ⟨0, 0, []⟩)]
  | kv :: rest =>
    if kv.1 = interKey i then (kv.1, bumpPat i kv.2) :: rest
    else kv :: addInteraction i rest

/-- `findInteractionPatterns`: groups with at least 3 occurrences become
`LearningPattern`s with `confidence = successCount/count`. -/
def findInteractionPatterns (now : ℚ) (interactions : List Interaction) :
    List LearningPattern :=
  ((interactions.foldl (fun mp i => addInteraction i mp) []).filter
      (fun kv => decide (3 ≤ kv.2.count))).map
    (fun kv =>
      { pattern := kv.1,
        confidence := (kv.2.successCount : ℚ) / (kv.2.count : ℚ),
        applications := kv.2.count,
        successRate := (kv.2.successCount : ℚ) / (kv.2.count : ℚ),
        lastUsed := now,
        context := kv.2.contexts })

/-- The grouping key `outcome.decision || outcome.actionType`. -/
def decKey (o : DecisionOutcome) : String :=
  if o.decision ≠ "" then o.decision else o.actionType

/-- The per-key accumulator of `findDecisionPatterns`. -/
structure DecAcc where
  count : ℕ
  successCount : ℕ
  impacts : List ℚ
deriving DecidableEq

/-- One `forEach` iteration of `findDecisionPatterns`: bump `count`; on
`outcome.success || outcome.impact > 0` bump `successCount` and push
`outcome.impact || 1` (`1` when the impact is the falsy `0`). -/
def bumpDec (o : DecisionOutcome) (p : DecAcc) : DecAcc :=
  if o.success ∨ 0 < o.impact then
    { count := p.count + 1, successCount := p.successCount + 1,
      impacts := p.impacts ++ [if o.impact ≠ 0 then o.impact else 1] }
  else
    { p with count := p.count + 1 }

/-- Upsert into the insertion-ordered `decisionMap`. -/
def addOutcome (o : DecisionOutcome) : List (String × DecAcc) → List (String × DecAcc)
  | [] => [(decKey o, bumpDec o ⟨0, 0, []⟩)]
  | kv :: rest =>
    if kv.1 = decKey o then (kv.1, bumpDec o kv.2) :: rest
    else kv :: addOutcome o rest

/-- `findDecisionPatterns`: groups with at least 2 occurrences become
`decision_`-prefixed `LearningPattern`s.  (`toString` of a rational stands
in for JS number formatting inside the context string; no claim reads it.) -/
def findDecisionPatterns (now : ℚ) (outcomes : List DecisionOutcome) :
    List LearningPattern :=
  ((outcomes.foldl (fun mp o => addOutcome o mp) []).filter
      (fun kv => decide (2 ≤ kv.2.count))).map
    (fun kv =>
      let avgImpact : ℚ :=
        if kv.2.impacts.length ≠ 0 then kv.2.impacts.sum / (kv.2.impacts.length : ℚ) else 0
      { pattern := "decision_" ++ kv.1,
        confidence := (kv.2.successCount : ℚ) / (kv.2.count : ℚ),
        applications := kv.2.count,
        successRate := (kv.2.successCount : ℚ) / (kv.2.count : ℚ),
        lastUsed := now,
        context := ["average_impact:" ++ toString avgImpact] })

/-- Step 2 of `consolidate`: append the mined interaction and decision
patterns to `long_term.learningPatterns` (sources are left in place). -/
def extractPatternsFromEpisodic (now : ℚ) (m : CMemory) : CMemory :=
  { m with learningPatterns := m.learningPatterns ++
      findInteractionPatterns now m.successfulInteractions ++
      findDecisionPatterns now m.decisionOutcomes }

/-- JS `String.prototype.split(' ')` on the character list: cut at every
single space, keeping empty fragments (structurally recursive so that
concrete instances evaluate). -/
def jsSplitSpaceAux : List Char → List Char → List String
  | [], acc => [String.mk acc.reverse]
  | c :: cs, acc =>
    if c = ' ' then String.mk acc.reverse :: jsSplitSpaceAux cs []
    else jsSplitSpaceAux cs (c :: acc)

/-- JS `split(' ')` of a string. -/
def jsSplitSpace (s : String) : List String := jsSplitSpaceAux s.data []

/-- JS `toLowerCase()` (character-wise lower-casing). -/
def jsToLower (s : String) : String := String.mk (s.data.map Char.toLower)

/-- The word set (lower-cased, space-split) of a node's concept name and
description, used by `calculateConceptSimilarity`.  (`List.dedup` keeps a
different duplicate occurrence than JS `Set` insertion order does, but the
two agree as sets, and only membership and cardinality are consumed.) -/
def wordsOf (concept description : String) : List String :=
  ((jsSplitSpace (jsToLower concept)) ++ (jsSplitSpace (jsToLower description))).dedup

/-- `calculateConceptSimilarity`: Jaccard overlap of the two word sets. -/
def conceptSimilarity (a b : KnowledgeNode) : ℚ :=
  let w1 := wordsOf a.concept a.description
  let w2 := wordsOf b.concept b.description
  let inter := w1.filter (fun w => w2.contains w)
  let unionWords := (w1 ++ w2).dedup
  (inter.length : ℚ) / (unionWords.length : ℚ)

/-- The relationship `updateConceptRelationships` inserts for a linked
pair. -/
def mkRel (a b : KnowledgeNode) : Relationship :=
  { source := a.nid, target := b.nid, rtype := "related_to",
    strength := conceptSimilarity a b }

/-- Does `r` connect the concept ids `x` and `y` (in either direction)? -/
def connB (x y : String) (r : Relationship) : Bool :=
  (r.source == x && r.target == y) || (r.source == y && r.target == x)

/-- One inner-loop iteration of `updateConceptRelationships`: insert a
`related_to` relationship when similarity exceeds `0.6` and no existing
relationship (in either direction, against the live array) connects the
pair. -/
def linkStep (rels : List Relationship) (p : KnowledgeNode × KnowledgeNode) :
    List Relationship :=
  if decide ((0.6 : ℚ) < conceptSimilarity p.1 p.2) && !(rels.any (connB p.1.nid p.2.nid)) then
    rels ++ [mkRel p.1 p.2]
  else rels

/-- All ordered pairs `(l[i], l[j])` with `i < j`, in the order of the
source's nested `for` loops. -/
def pairsOf {γ : Type} : List γ → List (γ × γ)
  | [] => []
  | c :: rest => rest.map (fun o => (c, o)) ++ pairsOf rest

/-- `updateConceptRelationships`. -/
def updateConceptRelationships (m : CMemory) : CMemory :=
  { m with relationships := (pairsOf m.domainKnowledge).foldl linkStep m.relationships }

/-- The threaded stand-in for `uuidv4()` where the generated id is read by
later code (knowledge-node ids). -/
def uuidStr (n : ℕ) : String :=
  "uuid-" ++ toString n

/-- Find the first node whose `concept` equals `ctx` and bump it in place
(`confidence = min(confidence + 0.1, 1.0)`, refresh `lastUpdated`);
`none` when no node matches. -/
def bumpNodeAux (now : ℚ) (ctx : String) : List KnowledgeNode → Option (List KnowledgeNode)
  | [] => none
  | n :: rest =>
    if n.concept = ctx then
      some ({ n with confidence := min (n.confidence + 0.1) 1, lastUpdated := now } :: rest)
    else (bumpNodeAux now ctx rest).map (fun r => n :: r)

/-- One iteration of step 3 of `consolidate`: update-or-insert a
`domainKnowledge` node for one recent contextual learning (the `ℕ`
component threads the uuid counter for freshly inserted nodes). -/
def upsertLearning (now : ℚ) (st : List KnowledgeNode × ℕ) (l : ContextualLearning) :
    List KnowledgeNode × ℕ :=
  match bumpNodeAux now l.context st.1 with
  | some dk => (dk, st.2)
  | none =>
    (st.1 ++ [{ nid := uuidStr st.2, concept := l.context, description := l.learning,
                relationships := [], confidence := l.confidence, lastUpdated := now }],
     st.2 + 1)

/-- Step 3 of `consolidate`: `updateSemanticKnowledge` upserts a node per
contextual learning of the last 7 days, then links related concepts. -/
def updateSemanticKnowledge (now : ℚ) (seed : ℕ) (m : CMemory) : CMemory :=
  let recent := m.contextualLearnings.filter
    (fun l => decide (now - l.timestamp < 7 * 24 * 60 * 60 * 1000))
  let dk := (recent.foldl (fun st l => upsertLearning now st l) (m.domainKnowledge, seed)).1
  updateConceptRelationships { m with domainKnowledge := dk }

/-- `MEMORY_DECAY_FACTOR` in `MemoryManager`. -/
def MEMORY_DECAY_FACTOR : ℚ := 0.95

/-- Decay of one learning pattern: multiply `confidence` by `0.95` when
`lastUsed` is more than 30 days old. -/
def decayPattern (now : ℚ) (p : LearningPattern) : LearningPattern :=
  if 30 < (now - p.lastUsed) / (1000 * 60 * 60 * 24) then
    { p with confidence := p.confidence * MEMORY_DECAY_FACTOR }
  else p

/-- Decay of one knowledge node: multiply `confidence` by `0.95` when
`lastUpdated` is more than 60 days old. -/
def decayNode (now : ℚ) (n : KnowledgeNode) : KnowledgeNode :=
  if 60 < (now - n.lastUpdated) / (1000 * 60 * 60 * 24) then
    { n with confidence := n.confidence * MEMORY_DECAY_FACTOR }
  else n

/-- Step 4 of `consolidate`: `applyMemoryDecay` decays stale patterns,
deletes every pattern with `confidence ≤ 0.1`, and decays stale knowledge
nodes (without deleting any). -/
def applyMemoryDecay (now : ℚ) (m : CMemory) : CMemory :=
  { m with
    learningPatterns := (m.learningPatterns.map (decayPattern now)).filter
      (fun p => decide ((0.1 : ℚ) < p.confidence)),
    domainKnowledge := m.domainKnowledge.map (decayNode now) }

/-- The claimed cumulative effect of `n` consolidation passes on the
confidence of a pattern (claim C5): a stale pattern's confidence is
multiplied by `0.95` once per pass, an up-to-date pattern is untouched. -/
def decayPatternPow (now : ℚ) (n : ℕ) (p : LearningPattern) : LearningPattern :=
  if 30 < (now - p.lastUsed) / (1000 * 60 * 60 * 24) then
    { p with confidence := p.confidence * 0.95 ^ n }
  else p

/-- `consolidate()`: the four steps in source order. -/
def consolidate (now : ℚ) (seed : ℕ) (m : CMemory) : CMemory :=
  applyMemoryDecay now
    (updateSemanticKnowledge now seed
      (extractPatternsFromEpisodic now
        (consolidateShortToLong m)))

/-- `n` repeated `consolidate()` calls (fixed clock and seed). -/
def consolidateIter (now : ℚ) (seed : ℕ) : ℕ → CMemory → CMemory
  | 0, m => m
  | n + 1, m => consolidateIter now seed n (consolidate now seed m)

/-- `groupSimilarInteractions`: insertion-ordered grouping by
`` `${type}_${outcome}` ``. -/
def addToGroup (i : Interaction) :
    List (String × List Interaction) → List (String × List Interaction)
  | [] => [(interKey i, [i])]
  | kv :: rest =>
    if kv.1 = interKey i then (kv.1, kv.2 ++ [i]) :: rest
    else kv :: addToGroup i rest

/-- `groupSimilarInteractions`. -/
def groupInteractions (l : List Interaction) : List (String × List Interaction) :=
  l.foldl (fun g i => addToGroup i g) []

/-- The `pattern` string of `createInteractionSummary` (built from the
group's first interaction; groups handed in are nonempty). -/
def summaryPattern : List Interaction → String
  | [] => ""
  | i :: _ => i.itype ++ " interactions with " ++ i.outcome ++ " outcome"

/-- The `confidence` of `createInteractionSummary`:
`min(interactions.length / 10, 0.9)`. -/
def summaryConfidence (g : List Interaction) : ℚ :=
  min ((g.length : ℚ) / 10) 0.9

/-- `compressEpisodicMemory`: every key group with more than 5 members is
removed from `successfulInteractions` and replaced by one
`contextualLearnings` summary.  (The summary's average sentiment,
frequency and time span are computed by `createInteractionSummary` and
immediately discarded by this caller; JS removes the group members by
object reference, which coincides with removal by group key.) -/
def compressEpisodicMemory (now : ℚ) (m : CMemory) : CMemory :=
  (groupInteractions m.successfulInteractions).foldl
    (fun acc kv =>
      if 5 < kv.2.length then
        { acc with
          successfulInteractions :=
            acc.successfulInteractions.filter (fun i => interKey i != kv.1),
          contextualLearnings := acc.contextualLearnings ++
            [{ context := kv.1, learning := summaryPattern kv.2,
               confidence := summaryConfidence kv.2, applications := kv.2.length,
               timestamp := now }] }
      else acc) m

/-- The `toMerge` index pairs of `mergeSemanticConcepts`: all `(i, j)`,
`i < j`, with similarity above `0.8`, computed over the *original* array
in nested-loop order. -/
def simPairs (nodes : List KnowledgeNode) : List (ℕ × ℕ) :=
  ((pairsOf (nodes.enumFrom 0)).filter
      (fun pq => decide ((0.8 : ℚ) < conceptSimilarity pq.1.2 pq.2.2))).map
    (fun pq => (pq.1.1, pq.2.1))

/-- The in-place merge of a node pair: the higher-confidence node absorbs
the other's description and relationship list. -/
def mergeNodes (c1 c2 : KnowledgeNode) : KnowledgeNode :=
  let target := if c2.confidence ≤ c1.confidence then c1 else c2
  let source := if c2.confidence ≤ c1.confidence then c2 else c1
  { target with
    description := target.description ++ " " ++ source.description,
    confidence := max target.confidence source.confidence,
    relationships := target.relationships ++ source.relationships }

/-- The `toMerge.reverse().forEach` loop of `mergeSemanticConcepts`.  The
index pairs refer to the original array, but each iteration splices the
live array (`splice(Math.max(i,j), 1)`), so a later pair can address a
position that no longer exists; JS then reads `.confidence` of
`undefined` and throws a `TypeError`.  The throw is modelled as
`Except.error` carrying the concepts array as mutated so far. -/
def mergeLoop : List (ℕ × ℕ) → List KnowledgeNode → Except (List KnowledgeNode) (List KnowledgeNode)
  | [], cs => Except.ok cs
  | ij :: rest, cs =>
    match cs[ij.1]?, cs[ij.2]? with
    | some c1, some c2 =>
      let ti := if c2.confidence ≤ c1.confidence then ij.1 else ij.2
      mergeLoop rest ((cs.set ti (mergeNodes c1 c2)).eraseIdx (max ij.1 ij.2))
    | _, _ => Except.error cs

/-- `mergeSemanticConcepts` (throwing modelled as `Except.error` with the
state at the point of the throw). -/
def mergeSemanticConcepts (m : CMemory) : Except CMemory CMemory :=
  match mergeLoop (simPairs m.domainKnowledge).reverse m.domainKnowledge with
  | Except.ok cs => Except.ok { m with domainKnowledge := cs }
  | Except.error cs => Except.error { m with domainKnowledge := cs }

/-- The map key `` `${source}_${target}_${type}` `` of `cleanupRelationships`. -/
def relKey (r : Relationship) : String :=
  r.source ++ "_" ++ r.target ++ "_" ++ r.rtype

/-- The reverse key `` `${target}_${source}_${type}` ``. -/
def revKey (r : Relationship) : String :=
  r.target ++ "_" ++ r.source ++ "_" ++ r.rtype

/-- The duplicate-removal pass of `cleanupRelationships`: keep a
relationship only when neither its key nor its reverse key was kept
before. -/
def dedupRels (l : List Relationship) : List Relationship :=
  (l.foldl
    (fun acc r =>
      if acc.2.contains (relKey r) || acc.2.contains (revKey r) then acc
      else (acc.1 ++ [r], acc.2 ++ [relKey r]))
    (([] : List Relationship), ([] : List String))).1

/-- `cleanupRelationships`: drop relationships referencing absent concept
ids, then drop duplicates (including reverse-direction duplicates). -/
def cleanupRelationships (m : CMemory) : CMemory :=
  let conceptIds := m.domainKnowledge.map KnowledgeNode.nid
  { m with relationships :=
      dedupRels (m.relationships.filter
        (fun r => conceptIds.contains r.source && conceptIds.contains r.target)) }

/-- `compressMemory()`: compress episodic memory, merge similar concepts,
clean up relationships — in source order; a throw inside
`mergeSemanticConcepts` aborts the remaining steps, so
`cleanupRelationships` never runs on the error path. -/
def compressMemory (now : ℚ) (m : CMemory) : Except CMemory CMemory :=
  match mergeSemanticConcepts (compressEpisodicMemory now m) with
  | Except.ok m2 => Except.ok (cleanupRelationships m2)
  | Except.error m2 => Except.error m2

/-- A concrete knowledge node exercising the concept-linking path. -/
def knA : KnowledgeNode :=
  { nid := "n1", concept := "lead scoring", description := "scores leads",
    relationships := [], confidence := 1, lastUpdated := 0 }

/-- A second node sharing four of five words with `knA`
(Jaccard similarity `4/5`). -/
def knB : KnowledgeNode :=
  { nid := "n2", concept := "lead scoring", description := "scores leads fast",
    relationships := [], confidence := 1, lastUpdated := 0 }

/-- A memory holding just the two similar nodes `knA` and `knB`. -/
def mC6 : CMemory := { emptyCMemory with domainKnowledge := [knA, knB] }

/-- One of three textually identical concept nodes (pairwise similarity
`1`), as produced by repeated upserts of near-identical learnings. -/
def knP : KnowledgeNode :=
  { nid := "c1", concept := "alpha", description := "beta",
    relationships := [], confidence := 1, lastUpdated := 0 }

/-- Second identical-text node. -/
def knQ : KnowledgeNode := { knP with nid := "c2" }

/-- Third identical-text node. -/
def knR : KnowledgeNode := { knP with nid := "c3" }

/-- A relationship between two of the three nodes, as `consolidate()`
itself would insert for this similarity; the interrupted compression run
leaves it dangling. -/
def relC7 : Relationship :=
  { source := "c1", target := "c3", rtype := "related_to", strength := 1 }

/-- The failing input for `compressMemory`: three mutually similar
(similarity above `0.8`) nodes, so `toMerge` holds three overlapping index
pairs and the second processed pair addresses a spliced-away slot. -/
def mC7 : CMemory :=
  { emptyCMemory with
    domainKnowledge := [knP, knQ, knR],
    relationships := [relC7] }

/-- The node the crashed merge leaves behind: `knQ` having absorbed
`knR`. -/
def mergedQR : KnowledgeNode :=
  { nid := "c2", concept := "alpha", description := "beta beta",
    relationships := [], confidence := 1, lastUpdated := 0 }

/-- The state in which the exception (modelled `Except.error`) leaves the
memory on input `mC7`: the merge of the pair `(1, 2)` is applied, the later
pairs and the whole `cleanupRelationships` pass never run. -/
def mC7post : CMemory := { mC7 with domainKnowledge := [knP, mergedQR] }

-- THEOREMS-MARKER

section StableSortLemmas

variable {α : Type} {β : Type} [LinearOrder β]

theorem insDesc_perm (key : α → β) (x : α) (l : List α) :
    (insDesc key x l).Perm (x :: l) := by
  induction l with
  | nil => simp [insDesc]
  | cons y ys ih =>
    simp only [insDesc]
    split
    · exact List.Perm.refl _
    · exact (ih.cons y).trans (List.Perm.swap x y ys)

theorem sortDesc_perm (key : α → β) (l : List α) :
    (sortDesc key l).Perm l := by
  induction l with
  | nil => simp [sortDesc]
  | cons x xs ih =>
    simpa [sortDesc] using (insDesc_perm key x (sortDesc key xs)).trans (ih.cons x)

theorem mem_insDesc (key : α → β) (x a : α) (l : List α) :
    a ∈ insDesc key x l ↔ a = x ∨ a ∈ l := by
  rw [(insDesc_perm key x l).mem_iff]; simp

theorem mem_sortDesc (key : α → β) (a : α) (l : List α) :
    a ∈ sortDesc key l ↔ a ∈ l :=
  (sortDesc_perm key l).mem_iff

theorem insDesc_sorted (key : α → β) (x : α) (l : List α)
    (h : l.Pairwise (fun a b => key b ≤ key a)) :
    (insDesc key x l).Pairwise (fun a b => key b ≤ key a) := by
  induction l with
  | nil => simp [insDesc]
  | cons y ys ih =>
    rw [List.pairwise_cons] at h
    simp only [insDesc]
    split
    · rename_i hxy
      refine List.pairwise_cons.mpr ⟨?_, List.pairwise_cons.mpr ⟨h.1, h.2⟩⟩
      intro b hb
      rcases List.mem_cons.mp hb with hb | hb
      · simpa [hb] using hxy
      · exact le_trans (h.1 b hb) hxy
    · rename_i hxy
      push_neg at hxy
      refine List.pairwise_cons.mpr ⟨?_, ih h.2⟩
      intro b hb
      rw [mem_insDesc] at hb
      rcases hb with hb | hb
      · exact le_of_lt (hb ▸ hxy)
      · exact h.1 b hb

theorem sortDesc_sorted (key : α → β) (l : List α) :
    (sortDesc key l).Pairwise (fun a b => key b ≤ key a) := by
  induction l with
  | nil => simp [sortDesc]
  | cons x xs ih => exact insDesc_sorted key x _ ih

/-- A list that is already sorted descending is fixed by `sortDesc`. -/
theorem sortDesc_of_sorted (key : α → β) (l : List α)
    (h : l.Pairwise (fun a b => key b ≤ key a)) :
    sortDesc key l = l := by
  induction l with
  | nil => rfl
  | cons x xs ih =>
    rw [List.pairwise_cons] at h
    have hxs : sortDesc key (x :: xs) = insDesc key x (sortDesc key xs) := rfl
    rw [hxs, ih h.2]
    cases xs with
    | nil => rfl
    | cons y ys => simp [insDesc, h.1 y (by simp)]

/-- Inserting a latest arrival commutes with stable insertion of an earlier one. -/
theorem insDesc_insLast (key : α → β) (x z : α) (l : List α) :
    insDesc key x (insLast key z l) = insLast key z (insDesc key x l) := by
  induction l with
  | nil =>
    by_cases h : key z ≤ key x <;> simp [insDesc, insLast, h]
  | cons y ys ih =>
    by_cases hzy : key z ≤ key y
    · -- z goes past y
      by_cases hxy : key y ≤ key x
      · have hzx : key z ≤ key x := le_trans hzy hxy
        simp [insLast, insDesc, hzy, hxy, hzx]
      · simp [insLast, insDesc, hzy, hxy, ih]
    · -- z lands right before y
      have hyz : key y ≤ key z := le_of_not_le hzy
      by_cases hxz : key z ≤ key x
      · have hxy : key y ≤ key x := le_trans hyz hxz
        simp [insLast, insDesc, hzy, hxz, hxy]
      · have hzx : key x ≤ key z := le_of_not_le hxz
        by_cases hxy : key y ≤ key x
        · simp [insLast, insDesc, hzy, hxz, hxy]
        · simp [insLast, insDesc, hzy, hxz, hxy]

/-- Appending one element to the array before sorting is the same as
inserting it, as a latest arrival, into the sorted array. -/
theorem sortDesc_append_singleton (key : α → β) (l : List α) (z : α) :
    sortDesc key (l ++ [z]) = insLast key z (sortDesc key l) := by
  induction l with
  | nil => simp [sortDesc, insLast, insDesc]
  | cons x xs ih =>
    have h1 : sortDesc key (x :: xs ++ [z]) = insDesc key x (sortDesc key (xs ++ [z])) := rfl
    rw [h1, ih]
    exact insDesc_insLast key x z (sortDesc key xs)

/-- Truncating to `k` elements commutes with a latest-arrival insertion:
dropping the below-cutoff tail never changes the top `k`. -/
theorem insLast_take (key : α → β) (z : α) (k : ℕ) (l : List α) :
    (insLast key z (l.take k)).take k = (insLast key z l).take k := by
  induction l generalizing k with
  | nil => simp
  | cons y ys ih =>
    cases k with
    | zero => simp
    | succ k =>
      rw [List.take_succ_cons]
      by_cases h : key z ≤ key y
      · simp only [insLast, if_pos h]
        rw [List.take_succ_cons, List.take_succ_cons, ih k]
      · simp only [insLast, if_neg h]
        rw [List.take_succ_cons, List.take_succ_cons]
        congr 1
        cases k with
        | zero => simp
        | succ m =>
          rw [List.take_succ_cons, List.take_succ_cons, List.take_take,
            Nat.min_eq_left (Nat.le_succ m)]

theorem insLex_perm (key : α → β) (x : ℕ × α) (l : List (ℕ × α)) :
    (insLex key x l).Perm (x :: l) := by
  induction l with
  | nil => simp [insLex]
  | cons y ys ih =>
    simp only [insLex]
    split
    · exact List.Perm.refl _
    · exact (ih.cons y).trans (List.Perm.swap x y ys)

theorem sortLex_perm (key : α → β) (l : List (ℕ × α)) :
    (sortLex key l).Perm l := by
  induction l with
  | nil => simp [sortLex]
  | cons x xs ih =>
    simpa [sortLex] using (insLex_perm key x (sortLex key xs)).trans (ih.cons x)

/-- If every index in `l` is larger than `x`'s index, the lexicographic
insertion of `x` coincides with the plain stable insertion. -/
theorem insLex_map_snd (key : α → β) (x : ℕ × α) (l : List (ℕ × α))
    (h : ∀ y ∈ l, x.1 < y.1) :
    (insLex key x l).map Prod.snd = insDesc key x.2 (l.map Prod.snd) := by
  induction l with
  | nil => simp [insLex, insDesc]
  | cons y ys ih =>
    have hy : x.1 < y.1 := h y (by simp)
    have hcond : (key y.2 < key x.2 ∨ (key y.2 = key x.2 ∧ x.1 < y.1)) ↔ key y.2 ≤ key x.2 := by
      constructor
      · rintro (hlt | ⟨he, _⟩)
        · exact le_of_lt hlt
        · exact le_of_eq he
      · intro hle
        rcases lt_or_eq_of_le hle with hlt | he
        · exact Or.inl hlt
        · exact Or.inr ⟨he, hy⟩
    simp only [insLex, insDesc]
    by_cases hc : key y.2 ≤ key x.2
    · rw [if_pos (hcond.mpr hc), if_pos hc]
      simp
    · rw [if_neg (fun hor => hc (hcond.mp hor)), if_neg hc]
      simp only [List.map_cons, List.cons.injEq, true_and]
      exact ih (fun z hz => h z (by simp [hz]))

/-- All indices occurring in `sortLex` of a tagged list come from the list. -/
theorem sortLex_fst_mem (key : α → β) (l : List (ℕ × α)) (y : ℕ × α)
    (h : y ∈ sortLex key l) : y ∈ l :=
  (sortLex_perm key l).subset h

theorem le_fst_of_mem_enumFrom {l : List α} {n : ℕ} {y : ℕ × α}
    (h : y ∈ l.enumFrom n) : n ≤ y.1 := by
  induction l generalizing n with
  | nil => simp [List.enumFrom] at h
  | cons x xs ih =>
    simp only [List.enumFrom, List.mem_cons] at h
    rcases h with h | h
    · simp [h]
    · exact Nat.le_of_succ_le (ih h)

/-- Bridge: forgetting the indices of the lexicographic sort of an
index-enumerated list yields exactly the stable descending sort.  This is
the formal content of "stable sort = sort by (key, insertion index)". -/
theorem sortLex_map_snd (key : α → β) (l : List α) (n : ℕ) :
    (sortLex key (l.enumFrom n)).map Prod.snd = sortDesc key l := by
  induction l generalizing n with
  | nil => simp [sortLex, sortDesc]
  | cons x xs ih =>
    have h1 : sortLex key ((x :: xs).enumFrom n)
        = insLex key (n, x) (sortLex key (xs.enumFrom (n + 1))) := rfl
    have h2 : sortDesc key (x :: xs) = insDesc key x (sortDesc key xs) := rfl
    rw [h1, h2, insLex_map_snd key (n, x) _ ?hidx, ih (n + 1)]
    case hidx =>
      intro y hy
      have hmem : y ∈ xs.enumFrom (n + 1) := sortLex_fst_mem key _ y hy
      exact Nat.lt_of_lt_of_le (Nat.lt_succ_self n) (le_fst_of_mem_enumFrom hmem)

theorem length_sortDesc (key : α → β) (l : List α) :
    (sortDesc key l).length = l.length :=
  (sortDesc_perm key l).length_eq

theorem length_sortLex (key : α → β) (l : List (ℕ × α)) :
    (sortLex key l).length = l.length :=
  (sortLex_perm key l).length_eq

end StableSortLemmas

/-! ### Claim C2: the `activeLeads` capacity invariant -/

/-- The exact state after any write sequence: insertion order until the
first overflow, afterwards the sorted-and-truncated top 100. -/
theorem storeActiveLead_foldl (ls : List Lead) :
    ls.foldl storeActiveLead [] =
      if ls.length ≤ MAX_SHORT_TERM_ITEMS then ls
      else (sortDesc Lead.score ls).take MAX_SHORT_TERM_ITEMS := by
  induction ls using List.reverseRecOn with
  | nil => simp [MAX_SHORT_TERM_ITEMS]
  | append_singleton l a ih =>
    rw [List.foldl_append, List.foldl_cons, List.foldl_nil, ih]
    by_cases h1 : l.length ≤ MAX_SHORT_TERM_ITEMS
    · rw [if_pos h1]
      by_cases h2 : l.length + 1 ≤ MAX_SHORT_TERM_ITEMS
      · rw [storeActiveLead, enforceActiveLeads,
          if_neg (by simpa using Nat.not_lt.mpr h2),
          if_pos (by simpa using h2)]
      · have hlen : l.length = MAX_SHORT_TERM_ITEMS := Nat.le_antisymm h1 (by omega)
        rw [storeActiveLead, enforceActiveLeads, if_pos (by simp [hlen]),
          if_neg (by simpa using h2)]
    · have hge : MAX_SHORT_TERM_ITEMS < l.length := Nat.not_le.mp h1
      rw [if_neg h1]
      have hstlen : ((sortDesc Lead.score l).take MAX_SHORT_TERM_ITEMS).length
          = MAX_SHORT_TERM_ITEMS := by
        rw [List.length_take, length_sortDesc]
        omega
      rw [storeActiveLead, enforceActiveLeads,
        if_pos (by rw [List.length_append, hstlen]; simp),
        if_neg (by simp; omega)]
      have hsorted : ((sortDesc Lead.score l).take MAX_SHORT_TERM_ITEMS).Pairwise
          (fun x y => Lead.score y ≤ Lead.score x) :=
        List.Pairwise.sublist (List.take_sublist _ _) (sortDesc_sorted Lead.score l)
      calc (sortDesc Lead.score ((sortDesc Lead.score l).take MAX_SHORT_TERM_ITEMS ++ [a])).take
              MAX_SHORT_TERM_ITEMS
          = (insLast Lead.score a
              (sortDesc Lead.score ((sortDesc Lead.score l).take MAX_SHORT_TERM_ITEMS))).take
              MAX_SHORT_TERM_ITEMS := by
            rw [sortDesc_append_singleton]
        _ = (insLast Lead.score a ((sortDesc Lead.score l).take MAX_SHORT_TERM_ITEMS)).take
              MAX_SHORT_TERM_ITEMS := by
            rw [sortDesc_of_sorted Lead.score _ hsorted]
        _ = (insLast Lead.score a (sortDesc Lead.score l)).take MAX_SHORT_TERM_ITEMS := by
            rw [insLast_take]
        _ = (sortDesc Lead.score (l ++ [a])).take MAX_SHORT_TERM_ITEMS := by
            rw [sortDesc_append_singleton]

/-- **C2**: for every sequence of `store('short', …)` writes routed to
`short_term.activeLeads`, after each write (i.e. for every write sequence
`ls`) the length of `activeLeads` is at most 100, and the retained entries
are exactly the (up to) 100 highest-score entries stored so far, ties
among equal scores broken in favour of earlier insertion order
(`topLeadsSpec` ranks by score descending, insertion index ascending). -/
theorem c2_activeLeads_capacity (ls : List Lead) :
    (ls.foldl storeActiveLead []).length ≤ MAX_SHORT_TERM_ITEMS ∧
    (ls.foldl storeActiveLead []).Perm (topLeadsSpec ls) := by
  rw [storeActiveLead_foldl]
  by_cases h : ls.length ≤ MAX_SHORT_TERM_ITEMS
  · rw [if_pos h]
    refine ⟨h, ?_⟩
    unfold topLeadsSpec
    have hlen : (sortLex Lead.score (ls.enumFrom 0)).length ≤ MAX_SHORT_TERM_ITEMS := by
      rw [length_sortLex, List.enumFrom_length]; exact h
    rw [List.take_of_length_le hlen, sortLex_map_snd]
    exact (sortDesc_perm Lead.score ls).symm
  · rw [if_neg h]
    constructor
    · rw [List.length_take]; exact min_le_left _ _
    · unfold topLeadsSpec
      rw [List.map_take, sortLex_map_snd]

/-! ### Claims C1 and C9: relevance scoring and ranking -/

theorem foldl_id {γ : Type} (l : List γ) (x : ℝ) :
    l.foldl (fun acc _ => acc) x = x := by
  induction l generalizing x with
  | nil => rfl
  | cons a as ih => simp only [List.foldl_cons]; exact ih x

/-- Adding `c` once per satisfied element is `c` times the count. -/
theorem foldl_if_add {γ : Type} (P : γ → Prop) [DecidablePred P] (c : ℝ) (l : List γ)
    (x : ℝ) :
    l.foldl (fun acc kv => if P kv then acc + c else acc) x
      = x + c * l.countP (fun kv => decide (P kv)) := by
  induction l generalizing x with
  | nil => simp
  | cons a as ih =>
    by_cases h : P a
    · rw [List.foldl_cons, if_pos h, ih, List.countP_cons]
      have hda : decide (P a) = true := by simp [h]
      rw [hda, if_pos rfl]
      push_cast
      ring
    · rw [List.foldl_cons, if_neg h, ih, List.countP_cons]
      simp [h]

/-- **C9**: ranking is deterministic (it is a pure function of the
candidate list and query at a fixed evaluation time), returns at most 50
items, sorted by non-increasing relevance score, and equal-score
candidates appear in their input order — the output is exactly the
50-truncation of the (score descending, input index ascending) ranking. -/
theorem c9_rank_deterministic (aid : String) (now : ℚ) (results : List MemResult)
    (q : Obj) :
    rankByRelevance aid now results q = rankByRelevance aid now results q ∧
    (rankByRelevance aid now results q).length ≤ 50 ∧
    (rankByRelevance aid now results q).Pairwise (fun a b => b.2 ≤ a.2) ∧
    rankByRelevance aid now results q =
      ((sortLex Prod.snd
          ((results.map (fun r => (r, calculateRelevance aid now r q))).enumFrom 0)).take
        50).map Prod.snd := by
  refine ⟨rfl, ?_, ?_, ?_⟩
  · unfold rankByRelevance
    rw [List.length_take]
    exact min_le_left _ _
  · exact List.Pairwise.sublist (List.take_sublist _ _) (sortDesc_sorted _ _)
  · unfold rankByRelevance
    rw [List.map_take, sortLex_map_snd]

/-- **C1 (amended)**: the relevance score is base `0.5`, plus `0.3` on
exact type equality, plus `0.2·exp(−daysSinceTimestamp/30)` whenever the
candidate carries a *nonzero* timestamp (`0` when absent or when the
timestamp is the falsy `0`), plus `0.1` on owning-agent match, plus `0.1`
for every query field matching the candidate payload (uncapped), clamped
to at most `1.0`. -/
theorem c1_relevance_formula (aid : String) (now : ℚ) (r : MemResult) (q : Obj) :
    calculateRelevance aid now r q = relevanceAmendedC1 aid now r q := by
  have hmax : ∀ z : ℝ, max 0 (0.2 * Real.exp z) = 0.2 * Real.exp z := fun z =>
    max_eq_right (mul_nonneg (by norm_num) (Real.exp_pos z).le)
  unfold calculateRelevance relevanceAmendedC1
  cases hd : r.data with
  | none =>
    simp only [hd, foldl_id]
    congr 1
    rcases r.timestamp with _ | ts
    · simp only [List.countP_false, Function.const_apply, Nat.cast_zero]
      split_ifs <;> push_cast <;> ring
    · by_cases hts : ts ≠ 0 <;>
        simp only [hts, if_true, if_false, ite_true, ite_false, hmax, List.countP_false,
          Function.const_apply, Nat.cast_zero, not_true, not_false_iff] <;>
        split_ifs <;> push_cast <;> ring
  | some d =>
    simp only [hd]
    rw [foldl_if_add (fun kv => lookupJS d kv.1 = kv.2) 0.1 q]
    congr 1
    rcases r.timestamp with _ | ts
    · split_ifs <;> push_cast <;> ring
    · by_cases hts : ts ≠ 0 <;>
        simp only [hts, if_true, if_false, ite_true, ite_false, hmax, not_true,
          not_false_iff] <;>
        split_ifs <;> push_cast <;> ring

/-- **C1 (counterexample)**: at a candidate carrying the timestamp `0`
(the falsy epoch value) and an empty query, evaluated 30 days later, the
code computes score `0.5` (the truthiness guard `if (result.timestamp)`
skips the recency bonus), while the claimed formula grants the bonus
`0.2·exp(−1) > 0`; the two disagree. -/
theorem c1_relevance_counterexample :
    calculateRelevance "agent" 2592000000
        { rtype := Value.vstr "x", timestamp := some 0, agentId := Value.undef,
          data := none } [] ≠
      relevanceClaimC1 "agent" 2592000000
        { rtype := Value.vstr "x", timestamp := some 0, agentId := Value.undef,
          data := none } [] := by
  have h2 : (0 : ℝ) < Real.exp (-1) := Real.exp_pos _
  have e1 : (Value.vstr "x" = Value.undef) = False :=
    eq_false (fun h => Value.noConfusion h)
  have e2 : (Value.undef = Value.vstr "agent") = False :=
    eq_false (fun h => Value.noConfusion h)
  have hL : calculateRelevance "agent" 2592000000
      { rtype := Value.vstr "x", timestamp := some 0, agentId := Value.undef,
        data := none } [] = 0.5 := by
    unfold calculateRelevance
    norm_num [lookupJS, List.lookup, min_def]
    simp [e1, e2]
    norm_num
  have hR : 0.5 < relevanceClaimC1 "agent" 2592000000
      { rtype := Value.vstr "x", timestamp := some 0, agentId := Value.undef,
        data := none } [] := by
    unfold relevanceClaimC1
    simp only [lookupJS, List.lookup, Option.getD_none, e1, e2, if_false,
      List.countP_nil, Nat.cast_zero]
    have harg : -(((((2592000000 : ℚ) : ℝ) - ((0 : ℚ) : ℝ)) / (1000 * 60 * 60 * 24)) / 30)
        = -1 := by
      norm_num
    rw [harg]
    refine lt_min ?_ ?_
    · norm_num
      linarith
    · norm_num
  rw [hL]
  intro hEq
  rw [← hEq] at hR
  exact absurd hR (by norm_num)

/-! ### Claims C3, C8, C10: the router -/

section RouterLemmas

variable {P : Type}

theorem perm_list_of_multiset {γ : Type} {l₁ l₂ : List γ}
    (h : (l₁ : Multiset γ) = (l₂ : Multiset γ)) : l₁.Perm l₂ :=
  Multiset.coe_eq_coe.mp h

theorem wmGet_append_single (wm : List (String × P)) (k : String) (v : P)
    (h : ∀ p ∈ wm, p.1 ≠ k) : wmGet (wm ++ [(k, v)]) k = some v := by
  induction wm with
  | nil => simp [wmGet]
  | cons a rest ih =>
    simp only [List.cons_append, wmGet]
    rw [if_neg (h a (by simp))]
    exact ih (fun p hp => h p (by simp [hp]))

theorem wmGet_map_replace (wm : List (String × P)) (k : String) (v : P)
    (h : wm.any (fun p => p.1 == k) = true) :
    wmGet (wm.map (fun p => if p.1 == k then (k, v) else p)) k = some v := by
  induction wm with
  | nil => simp at h
  | cons a rest ih =>
    by_cases ha : (a.1 == k) = true
    · have ha2 : a.1 = k := by simpa using ha
      simp [wmGet, ha2]
    · have ha' : ¬ (a.1 = k) := by simpa using ha
      simp only [List.any_cons, ha, Bool.false_or] at h
      simp only [List.map_cons, if_neg ha, wmGet]
      rw [if_neg ha']
      exact ih h

/-- A `workingMemory` write is last-write-wins: reading the key back gives
the written value. -/
theorem wmGet_wmSet (wm : List (String × P)) (k : String) (v : P) :
    wmGet (wmSet wm k v) k = some v := by
  unfold wmSet
  by_cases h : wm.any (fun p => p.1 == k)
  · rw [if_pos h]
    exact wmGet_map_replace wm k v h
  · rw [if_neg h]
    refine wmGet_append_single wm k v ?_
    intro p hp hc
    exact h (List.any_eq_true.mpr ⟨p, hp, by simp [hc]⟩)

theorem replace_fst (k : String) (v : P) (p : String × P) :
    (if p.1 == k then (k, v) else p).1 = p.1 := by
  by_cases h : (p.1 == k) = true
  · have h' : p.1 = k := by simpa using h
    simp [h, h']
  · simp [h]

theorem map_replace_fst (wm : List (String × P)) (k : String) (v : P) :
    (wm.map (fun p => if p.1 == k then (k, v) else p)).map Prod.fst
      = wm.map Prod.fst := by
  rw [List.map_map]
  exact List.map_congr_left (fun p _ => replace_fst k v p)

/-- A `workingMemory` write leaves the key sequence unchanged when the key
exists, and appends the key otherwise. -/
theorem wmSet_keys (wm : List (String × P)) (k : String) (v : P) :
    (wmSet wm k v).map Prod.fst =
      if wm.any (fun p => p.1 == k) then wm.map Prod.fst
      else wm.map Prod.fst ++ [k] := by
  unfold wmSet
  by_cases h : wm.any (fun p => p.1 == k)
  · rw [if_pos h, if_pos h, map_replace_fst]
  · rw [if_neg h, if_neg h, List.map_append]
    rfl

/-- A `workingMemory` write preserves key uniqueness and leaves exactly
one slot under the written key. -/
theorem wmSet_nodup_count (wm : List (String × P)) (k : String) (v : P)
    (h : (wm.map Prod.fst).Nodup) :
    ((wmSet wm k v).map Prod.fst).Nodup ∧
    ((wmSet wm k v).map Prod.fst).count k = 1 := by
  rw [wmSet_keys]
  by_cases hin : wm.any (fun p => p.1 == k)
  · rw [if_pos hin]
    refine ⟨h, ?_⟩
    have hkmem : k ∈ wm.map Prod.fst := by
      rcases List.any_eq_true.mp hin with ⟨p, hp, hpk⟩
      exact List.mem_map.mpr ⟨p, hp, by simpa using hpk⟩
    exact List.count_eq_one_of_mem h hkmem
  · rw [if_neg hin]
    have hknot : k ∉ wm.map Prod.fst := by
      intro hmem
      rcases List.mem_map.mp hmem with ⟨p, hp, hpk⟩
      exact hin (List.any_eq_true.mpr ⟨p, hp, by simp [hpk]⟩)
    constructor
    · simp [List.nodup_append, h, hknot]
    · simp [List.count_append, List.count_eq_zero.mpr hknot]

/-- Values reachable from `workingMemory` after a write. -/
theorem mem_wmSet_snd (wm : List (String × P)) (k : String) (v x : P)
    (h : x ∈ (wmSet wm k v).map Prod.snd) : x ∈ wm.map Prod.snd ∨ x = v := by
  unfold wmSet at h
  split at h
  · rcases List.mem_map.mp h with ⟨p, hp, hx⟩
    rcases List.mem_map.mp hp with ⟨p0, hp0, hpp⟩
    by_cases hk : (p0.1 == k) = true
    · rw [if_pos hk] at hpp
      right
      rw [← hx, ← hpp]
    · rw [if_neg hk] at hpp
      left
      exact List.mem_map.mpr ⟨p0, hp0, by rw [hpp, hx]⟩
  · rw [List.map_append] at h
    rcases List.mem_append.mp h with h1 | h1
    · exact Or.inl h1
    · right
      simpa using h1

/-- The capacity enforcer only ever drops entries. -/
theorem enforce_subset (prioOf scoreOf tsOf : P → ℚ) (s : RShort P) :
    (∀ v ∈ (enforceShortTermLimitsR prioOf scoreOf tsOf s).currentContext,
        v ∈ s.currentContext) ∧
    (∀ v ∈ (enforceShortTermLimitsR prioOf scoreOf tsOf s).activeLeads,
        v ∈ s.activeLeads) ∧
    (∀ v ∈ (enforceShortTermLimitsR prioOf scoreOf tsOf s).recentActions,
        v ∈ s.recentActions) ∧
    (enforceShortTermLimitsR prioOf scoreOf tsOf s).workingMemory = s.workingMemory := by
  unfold enforceShortTermLimitsR
  refine ⟨?_, ?_, ?_, rfl⟩ <;> intro v hv <;> dsimp only at hv <;> split at hv
  · exact (mem_sortDesc prioOf v _).mp (List.take_subset _ _ hv)
  · exact hv
  · exact (mem_sortDesc scoreOf v _).mp (List.take_subset _ _ hv)
  · exact hv
  · exact (mem_sortDesc tsOf v _).mp (List.take_subset _ _ hv)
  · exact hv

/-- The capacity enforcer is the identity while all three lists are within
the 100-entry bound. -/
theorem enforce_eq_of_le (prioOf scoreOf tsOf : P → ℚ) (s : RShort P)
    (hc : s.currentContext.length ≤ MAX_SHORT_TERM_ITEMS)
    (ha : s.activeLeads.length ≤ MAX_SHORT_TERM_ITEMS)
    (hr : s.recentActions.length ≤ MAX_SHORT_TERM_ITEMS) :
    enforceShortTermLimitsR prioOf scoreOf tsOf s = s := by
  unfold enforceShortTermLimitsR
  rw [if_neg (Nat.not_lt.mpr hc), if_neg (Nat.not_lt.mpr ha), if_neg (Nat.not_lt.mpr hr)]

/-- Values reachable from the short tier after a short-term write come
from the old state or are the written payload. -/
theorem storeShort_subset (prioOf scoreOf tsOf : P → ℚ) (item : MemoryItem P)
    (s : RShort P) :
    (∀ v ∈ (storeShortTermR prioOf scoreOf tsOf item s).currentContext,
        v ∈ s.currentContext ∨ v = item.idata) ∧
    (∀ v ∈ (storeShortTermR prioOf scoreOf tsOf item s).activeLeads,
        v ∈ s.activeLeads ∨ v = item.idata) ∧
    (∀ v ∈ (storeShortTermR prioOf scoreOf tsOf item s).recentActions,
        v ∈ s.recentActions ∨ v = item.idata) ∧
    (∀ v ∈ (storeShortTermR prioOf scoreOf tsOf item s).workingMemory.map Prod.snd,
        v ∈ s.workingMemory.map Prod.snd ∨ v = item.idata) := by
  unfold storeShortTermR
  split_ifs with h1 h2 h3
  · obtain ⟨ec, ea, er, ew⟩ := enforce_subset prioOf scoreOf tsOf
      { s with currentContext := s.currentContext ++ [item.idata] }
    refine ⟨?_, ?_, ?_, ?_⟩ <;> intro v hv
    · rcases List.mem_append.mp (ec v hv) with h | h
      · exact Or.inl h
      · exact Or.inr (by simpa using h)
    · exact Or.inl (ea v hv)
    · exact Or.inl (er v hv)
    · rw [ew] at hv
      exact Or.inl hv
  · obtain ⟨ec, ea, er, ew⟩ := enforce_subset prioOf scoreOf tsOf
      { s with activeLeads := s.activeLeads ++ [item.idata] }
    refine ⟨?_, ?_, ?_, ?_⟩ <;> intro v hv
    · exact Or.inl (ec v hv)
    · rcases List.mem_append.mp (ea v hv) with h | h
      · exact Or.inl h
      · exact Or.inr (by simpa using h)
    · exact Or.inl (er v hv)
    · rw [ew] at hv
      exact Or.inl hv
  · obtain ⟨ec, ea, er, ew⟩ := enforce_subset prioOf scoreOf tsOf
      { s with recentActions := s.recentActions ++ [item.idata] }
    refine ⟨?_, ?_, ?_, ?_⟩ <;> intro v hv
    · exact Or.inl (ec v hv)
    · exact Or.inl (ea v hv)
    · rcases List.mem_append.mp (er v hv) with h | h
      · exact Or.inl h
      · exact Or.inr (by simpa using h)
    · rw [ew] at hv
      exact Or.inl hv
  · obtain ⟨ec, ea, er, ew⟩ := enforce_subset prioOf scoreOf tsOf
      { s with workingMemory := wmSet s.workingMemory item.itype item.idata }
    refine ⟨?_, ?_, ?_, ?_⟩ <;> intro v hv
    · exact Or.inl (ec v hv)
    · exact Or.inl (ea v hv)
    · exact Or.inl (er v hv)
    · rw [ew] at hv
      exact mem_wmSet_snd s.workingMemory item.itype item.idata v hv


/-- Values reachable from the long tier after a long-term write. -/
theorem storeLong_subset (item : MemoryItem P) (l : RLong P) :
    (∀ v ∈ (storeLongTermR item l).customerProfiles,
        v ∈ l.customerProfiles ∨ v = item.idata) ∧
    (∀ v ∈ (storeLongTermR item l).campaignHistory,
        v ∈ l.campaignHistory ∨ v = item.idata) ∧
    (∀ v ∈ (storeLongTermR item l).performanceMetrics,
        v ∈ l.performanceMetrics ∨ v = item.idata) ∧
    (∀ v ∈ (storeLongTermR item l).learningPatterns,
        v ∈ l.learningPatterns ∨ v = item.idata) := by
  unfold storeLongTermR
  split_ifs <;> refine ⟨?_, ?_, ?_, ?_⟩ <;> intro v hv <;>
    first
      | exact Or.inl hv
      | (rcases List.mem_append.mp hv with h | h
         exacts [Or.inl h, Or.inr (by simpa using h)])

/-- Values reachable from the episodic tier after an episodic write. -/
theorem storeEpisodic_subset (item : MemoryItem P) (e : REpisodic P) :
    (∀ v ∈ (storeEpisodicR item e).successfulInteractions,
        v ∈ e.successfulInteractions ∨ v = item.idata) ∧
    (∀ v ∈ (storeEpisodicR item e).problemResolutions,
        v ∈ e.problemResolutions ∨ v = item.idata) ∧
    (∀ v ∈ (storeEpisodicR item e).decisionOutcomes,
        v ∈ e.decisionOutcomes ∨ v = item.idata) ∧
    (∀ v ∈ (storeEpisodicR item e).contextualLearnings,
        v ∈ e.contextualLearnings ∨ v = item.idata) := by
  unfold storeEpisodicR
  split_ifs <;> refine ⟨?_, ?_, ?_, ?_⟩ <;> intro v hv <;>
    first
      | exact Or.inl hv
      | (rcases List.mem_append.mp hv with h | h
         exacts [Or.inl h, Or.inr (by simpa using h)])

/-- Values reachable from the semantic tier after a semantic write. -/
theorem storeSemantic_subset (item : MemoryItem P) (s : RSemantic P) :
    (∀ v ∈ (storeSemanticR item s).domainKnowledge,
        v ∈ s.domainKnowledge ∨ v = item.idata) ∧
    (∀ v ∈ (storeSemanticR item s).relationships,
        v ∈ s.relationships ∨ v = item.idata) ∧
    (∀ v ∈ (storeSemanticR item s).concepts,
        v ∈ s.concepts ∨ v = item.idata) ∧
    (∀ v ∈ (storeSemanticR item s).rules,
        v ∈ s.rules ∨ v = item.idata) := by
  unfold storeSemanticR
  split_ifs <;> refine ⟨?_, ?_, ?_, ?_⟩ <;> intro v hv <;>
    first
      | exact Or.inl hv
      | (rcases List.mem_append.mp hv with h | h
         exacts [Or.inl h, Or.inr (by simpa using h)])

theorem mem_allEntries (m : RMemory P) (v : P) :
    v ∈ allEntries m ↔
      v ∈ m.shortTerm.currentContext ∨ v ∈ m.shortTerm.activeLeads ∨
      v ∈ m.shortTerm.recentActions ∨ v ∈ m.shortTerm.workingMemory.map Prod.snd ∨
      v ∈ m.longTerm.customerProfiles ∨ v ∈ m.longTerm.campaignHistory ∨
      v ∈ m.longTerm.performanceMetrics ∨ v ∈ m.longTerm.learningPatterns ∨
      v ∈ m.episodic.successfulInteractions ∨ v ∈ m.episodic.problemResolutions ∨
      v ∈ m.episodic.decisionOutcomes ∨ v ∈ m.episodic.contextualLearnings ∨
      v ∈ m.semantic.domainKnowledge ∨ v ∈ m.semantic.relationships ∨
      v ∈ m.semantic.concepts ∨ v ∈ m.semantic.rules := by
  unfold allEntries
  simp [List.mem_append, or_assoc]

set_option maxHeartbeats 1600000 in
/-- **C3**: every `store(tier, item)` write appends exactly `item.data`
(the caller-supplied inner `data` field) to the destination
sub-collection; the envelope `{id, agentId, timestamp}` built by `store`
is discarded.  Conjuncts: (1) the dispatch result does not depend on the
envelope fields; (2) any entry reachable after the dispatch was reachable
before or is exactly the inner payload; (3)–(5) the long/episodic/semantic
tier entries are, as a multiset, the old entries plus the inner payload
exactly when the tag is recognized for that tier. -/
theorem c3_store_appends_inner_data (prioOf scoreOf tsOf : P → ℚ)
    (f1 a1 f2 a2 : String) (n1 n2 : ℚ) (tier : Tier) (rtype : String) (rdata : P)
    (m : RMemory P) :
    (storeDispatch prioOf scoreOf tsOf tier
        { mid := f1, agentId := a1, timestamp := n1, itype := rtype, idata := rdata } m =
      storeDispatch prioOf scoreOf tsOf tier
        { mid := f2, agentId := a2, timestamp := n2, itype := rtype, idata := rdata } m) ∧
    (∀ v, v ∈ allEntries (storeDispatch prioOf scoreOf tsOf tier
        { mid := f1, agentId := a1, timestamp := n1, itype := rtype, idata := rdata } m) →
      v ∈ allEntries m ∨ v = rdata) ∧
    ((longEntries (storeDispatch prioOf scoreOf tsOf Tier.long
        { mid := f1, agentId := a1, timestamp := n1, itype := rtype, idata := rdata }
        m).longTerm).Perm
      (longEntries m.longTerm ++ if rtype ∈ longTags then [rdata] else [])) ∧
    ((episodicEntries (storeDispatch prioOf scoreOf tsOf Tier.episodic
        { mid := f1, agentId := a1, timestamp := n1, itype := rtype, idata := rdata }
        m).episodic).Perm
      (episodicEntries m.episodic ++ if rtype ∈ episodicTags then [rdata] else [])) ∧
    ((semanticEntries (storeDispatch prioOf scoreOf tsOf Tier.semantic
        { mid := f1, agentId := a1, timestamp := n1, itype := rtype, idata := rdata }
        m).semantic).Perm
      (semanticEntries m.semantic ++ if rtype ∈ semanticTags then [rdata] else [])) := by
  refine ⟨by cases tier <;> rfl, ?_, ?_, ?_, ?_⟩
  · intro v hv
    cases tier with
    | short =>
      obtain ⟨hc, ha, hr, hw⟩ := storeShort_subset prioOf scoreOf tsOf
        { mid := f1, agentId := a1, timestamp := n1, itype := rtype, idata := rdata }
        m.shortTerm
      simp only [storeDispatch, mem_allEntries] at hv ⊢
      rcases hv with h | h | h | h | h
      · rcases hc v h with h' | h'
        · exact Or.inl (Or.inl h')
        · exact Or.inr h'
      · rcases ha v h with h' | h'
        · exact Or.inl (Or.inr (Or.inl h'))
        · exact Or.inr h'
      · rcases hr v h with h' | h'
        · exact Or.inl (Or.inr (Or.inr (Or.inl h')))
        · exact Or.inr h'
      · rcases hw v h with h' | h'
        · exact Or.inl (Or.inr (Or.inr (Or.inr (Or.inl h'))))
        · exact Or.inr h'
      · exact Or.inl (Or.inr (Or.inr (Or.inr (Or.inr h))))
    | long =>
      obtain ⟨p1, p2, p3, p4⟩ := storeLong_subset
        { mid := f1, agentId := a1, timestamp := n1, itype := rtype, idata := rdata }
        m.longTerm
      simp only [storeDispatch, mem_allEntries] at hv ⊢
      rcases hv with h | h | h | h | h | h | h | h | h
      · exact Or.inl (Or.inl h)
      · exact Or.inl (Or.inr (Or.inl h))
      · exact Or.inl (Or.inr (Or.inr (Or.inl h)))
      · exact Or.inl (Or.inr (Or.inr (Or.inr (Or.inl h))))
      · rcases p1 v h with hh | hh
        · exact Or.inl (Or.inr (Or.inr (Or.inr (Or.inr (Or.inl hh)))))
        · exact Or.inr hh
      · rcases p2 v h with hh | hh
        · exact Or.inl (Or.inr (Or.inr (Or.inr (Or.inr (Or.inr (Or.inl hh))))))
        · exact Or.inr hh
      · rcases p3 v h with hh | hh
        · exact Or.inl (Or.inr (Or.inr (Or.inr (Or.inr (Or.inr (Or.inr (Or.inl hh)))))))
        · exact Or.inr hh
      · rcases p4 v h with hh | hh
        · exact Or.inl (Or.inr (Or.inr (Or.inr (Or.inr (Or.inr (Or.inr (Or.inr (Or.inl hh))))))))
        · exact Or.inr hh
      · exact Or.inl (Or.inr (Or.inr (Or.inr (Or.inr (Or.inr (Or.inr (Or.inr (Or.inr h))))))))
    | episodic =>
      obtain ⟨p1, p2, p3, p4⟩ := storeEpisodic_subset
        { mid := f1, agentId := a1, timestamp := n1, itype := rtype, idata := rdata }
        m.episodic
      simp only [storeDispatch, mem_allEntries] at hv ⊢
      rcases hv with h | h | h | h | h | h | h | h | h | h | h | h | h
      · exact Or.inl (Or.inl h)
      · exact Or.inl (Or.inr (Or.inl h))
      · exact Or.inl (Or.inr (Or.inr (Or.inl h)))
      · exact Or.inl (Or.inr (Or.inr (Or.inr (Or.inl h))))
      · exact Or.inl (Or.inr (Or.inr (Or.inr (Or.inr (Or.inl h)))))
      · exact Or.inl (Or.inr (Or.inr (Or.inr (Or.inr (Or.inr (Or.inl h))))))
      · exact Or.inl (Or.inr (Or.inr (Or.inr (Or.inr (Or.inr (Or.inr (Or.inl h)))))))
      · exact Or.inl (Or.inr (Or.inr (Or.inr (Or.inr (Or.inr (Or.inr (Or.inr (Or.inl h))))))))
      · rcases p1 v h with hh | hh
        · exact Or.inl (Or.inr (Or.inr (Or.inr (Or.inr (Or.inr (Or.inr (Or.inr (Or.inr (Or.inl hh)))))))))
        · exact Or.inr hh
      · rcases p2 v h with hh | hh
        · exact Or.inl (Or.inr (Or.inr (Or.inr (Or.inr (Or.inr (Or.inr (Or.inr (Or.inr (Or.inr (Or.inl hh))))))))))
        · exact Or.inr hh
      · rcases p3 v h with hh | hh
        · exact Or.inl (Or.inr (Or.inr (Or.inr (Or.inr (Or.inr (Or.inr (Or.inr (Or.inr (Or.inr (Or.inr (Or.inl hh)))))))))))
        · exact Or.inr hh
      · rcases p4 v h with hh | hh
        · exact Or.inl (Or.inr (Or.inr (Or.inr (Or.inr (Or.inr (Or.inr (Or.inr (Or.inr (Or.inr (Or.inr (Or.inr (Or.inl hh))))))))))))
        · exact Or.inr hh
      · exact Or.inl (Or.inr (Or.inr (Or.inr (Or.inr (Or.inr (Or.inr (Or.inr (Or.inr (Or.inr (Or.inr (Or.inr (Or.inr h))))))))))))
    | semantic =>
      obtain ⟨p1, p2, p3, p4⟩ := storeSemantic_subset
        { mid := f1, agentId := a1, timestamp := n1, itype := rtype, idata := rdata }
        m.semantic
      simp only [storeDispatch, mem_allEntries] at hv ⊢
      rcases hv with h | h | h | h | h | h | h | h | h | h | h | h | h | h | h | h
      · exact Or.inl (Or.inl h)
      · exact Or.inl (Or.inr (Or.inl h))
      · exact Or.inl (Or.inr (Or.inr (Or.inl h)))
      · exact Or.inl (Or.inr (Or.inr (Or.inr (Or.inl h))))
      · exact Or.inl (Or.inr (Or.inr (Or.inr (Or.inr (Or.inl h)))))
      · exact Or.inl (Or.inr (Or.inr (Or.inr (Or.inr (Or.inr (Or.inl h))))))
      · exact Or.inl (Or.inr (Or.inr (Or.inr (Or.inr (Or.inr (Or.inr (Or.inl h)))))))
      · exact Or.inl (Or.inr (Or.inr (Or.inr (Or.inr (Or.inr (Or.inr (Or.inr (Or.inl h))))))))
      · exact Or.inl (Or.inr (Or.inr (Or.inr (Or.inr (Or.inr (Or.inr (Or.inr (Or.inr (Or.inl h)))))))))
      · exact Or.inl (Or.inr (Or.inr (Or.inr (Or.inr (Or.inr (Or.inr (Or.inr (Or.inr (Or.inr (Or.inl h))))))))))
      · exact Or.inl (Or.inr (Or.inr (Or.inr (Or.inr (Or.inr (Or.inr (Or.inr (Or.inr (Or.inr (Or.inr (Or.inl h)))))))))))
      · exact Or.inl (Or.inr (Or.inr (Or.inr (Or.inr (Or.inr (Or.inr (Or.inr (Or.inr (Or.inr (Or.inr (Or.inr (Or.inl h))))))))))))
      · rcases p1 v h with hh | hh
        · exact Or.inl (Or.inr (Or.inr (Or.inr (Or.inr (Or.inr (Or.inr (Or.inr (Or.inr (Or.inr (Or.inr (Or.inr (Or.inr (Or.inl hh)))))))))))))
        · exact Or.inr hh
      · rcases p2 v h with hh | hh
        · exact Or.inl (Or.inr (Or.inr (Or.inr (Or.inr (Or.inr (Or.inr (Or.inr (Or.inr (Or.inr (Or.inr (Or.inr (Or.inr (Or.inr (Or.inl hh))))))))))))))
        · exact Or.inr hh
      · rcases p3 v h with hh | hh
        · exact Or.inl (Or.inr (Or.inr (Or.inr (Or.inr (Or.inr (Or.inr (Or.inr (Or.inr (Or.inr (Or.inr (Or.inr (Or.inr (Or.inr (Or.inr (Or.inl hh)))))))))))))))
        · exact Or.inr hh
      · rcases p4 v h with hh | hh
        · exact Or.inl (Or.inr (Or.inr (Or.inr (Or.inr (Or.inr (Or.inr (Or.inr (Or.inr (Or.inr (Or.inr (Or.inr (Or.inr (Or.inr (Or.inr (Or.inr hh)))))))))))))))
        · exact Or.inr hh
  · simp only [storeDispatch]
    unfold storeLongTermR longEntries
    split_ifs <;>
      first
        | (refine perm_list_of_multiset ?_
           simp only [← Multiset.coe_add]
           abel
           done)
        | simp_all [longTags]
  · simp only [storeDispatch]
    unfold storeEpisodicR episodicEntries
    split_ifs <;>
      first
        | (refine perm_list_of_multiset ?_
           simp only [← Multiset.coe_add]
           abel
           done)
        | simp_all [episodicTags]
  · simp only [storeDispatch]
    unfold storeSemanticR semanticEntries
    split_ifs <;>
      first
        | (refine perm_list_of_multiset ?_
           simp only [← Multiset.coe_add]
           abel
           done)
        | simp_all [semanticTags]

/-- Effect of a short-term write on the combined occupancy count, while
all three lists are under the 100 cap: a recognized list tag adds one
entry, an unrecognized (`workingMemory`) tag adds none. -/
theorem storeShort_length (prioOf scoreOf tsOf : P → ℚ) (item : MemoryItem P)
    (s : RShort P)
    (hc : s.currentContext.length < MAX_SHORT_TERM_ITEMS)
    (ha : s.activeLeads.length < MAX_SHORT_TERM_ITEMS)
    (hr : s.recentActions.length < MAX_SHORT_TERM_ITEMS) :
    (storeShortTermR prioOf scoreOf tsOf item s).currentContext.length +
      (storeShortTermR prioOf scoreOf tsOf item s).activeLeads.length +
      (storeShortTermR prioOf scoreOf tsOf item s).recentActions.length =
    s.currentContext.length + s.activeLeads.length + s.recentActions.length +
      (if item.itype ∈ shortListTags then 1 else 0) := by
  by_cases h1 : item.itype = "conversation_context"
  · rw [if_pos (by simp [shortListTags, h1])]
    unfold storeShortTermR
    rw [if_pos h1, enforce_eq_of_le prioOf scoreOf tsOf
      { s with currentContext := s.currentContext ++ [item.idata] }
      (by simpa using hc) (le_of_lt ha) (le_of_lt hr)]
    simp
    omega
  · by_cases h2 : item.itype = "active_lead" ∨ item.itype = "processed_lead"
    · rw [if_pos (by rcases h2 with h | h <;> simp [shortListTags, h])]
      unfold storeShortTermR
      rw [if_neg h1, if_pos h2, enforce_eq_of_le prioOf scoreOf tsOf
        { s with activeLeads := s.activeLeads ++ [item.idata] }
        (le_of_lt hc) (by simpa using ha) (le_of_lt hr)]
      simp
      omega
    · by_cases h3 : item.itype = "recent_action"
      · rw [if_pos (by simp [shortListTags, h3])]
        unfold storeShortTermR
        rw [if_neg h1, if_neg h2, if_pos h3, enforce_eq_of_le prioOf scoreOf tsOf
          { s with recentActions := s.recentActions ++ [item.idata] }
          (le_of_lt hc) (le_of_lt ha) (by simpa using hr)]
        simp
        omega
      · rw [if_neg (by
          simp only [shortListTags, List.mem_cons, List.mem_singleton]
          push_neg at h2
          simp [h1, h2.1, h2.2, h3])]
        unfold storeShortTermR
        rw [if_neg h1, if_neg h2, if_neg h3, enforce_eq_of_le prioOf scoreOf tsOf
          { s with workingMemory := wmSet s.workingMemory item.itype item.idata }
          (le_of_lt hc) (le_of_lt ha) (le_of_lt hr)]
        simp

set_option maxHeartbeats 800000 in
/-- **C8**: every `store()` call, regardless of tier, measures the
combined count of `currentContext + activeLeads + recentActions` *after*
the write and runs a full consolidation exactly when that count strictly
exceeds 50 (so never at 50 or below).  Conjuncts: (1) the trigger flag is
exactly the post-write occupancy test; (2)/(3) consolidation runs on the
dispatched state precisely when the flag is set; (4) for non-short tiers
the trigger is equivalent to the pre-write count exceeding 50; (5) for
short-tier writes with all three lists under the 100 cap, the trigger is
equivalent to the pre-write count, plus one for a recognized list tag,
exceeding 50. -/
theorem c8_store_consolidation_trigger (prioOf scoreOf tsOf : P → ℚ)
    (cf : RMemory P → RMemory P) (freshId aid : String) (now : ℚ) (tier : Tier)
    (rtype : String) (rdata : P) (m : RMemory P) :
    ((storeR prioOf scoreOf tsOf cf freshId aid now tier rtype rdata m).2 =
      decide (50 < (storeDispatch prioOf scoreOf tsOf tier
          { mid := freshId, agentId := aid, timestamp := now, itype := rtype,
            idata := rdata } m).shortTerm.currentContext.length +
        (storeDispatch prioOf scoreOf tsOf tier
          { mid := freshId, agentId := aid, timestamp := now, itype := rtype,
            idata := rdata } m).shortTerm.activeLeads.length +
        (storeDispatch prioOf scoreOf tsOf tier
          { mid := freshId, agentId := aid, timestamp := now, itype := rtype,
            idata := rdata } m).shortTerm.recentActions.length)) ∧
    ((storeR prioOf scoreOf tsOf cf freshId aid now tier rtype rdata m).2 = true →
      (storeR prioOf scoreOf tsOf cf freshId aid now tier rtype rdata m).1 =
        cf (storeDispatch prioOf scoreOf tsOf tier
          { mid := freshId, agentId := aid, timestamp := now, itype := rtype,
            idata := rdata } m)) ∧
    ((storeR prioOf scoreOf tsOf cf freshId aid now tier rtype rdata m).2 = false →
      (storeR prioOf scoreOf tsOf cf freshId aid now tier rtype rdata m).1 =
        storeDispatch prioOf scoreOf tsOf tier
          { mid := freshId, agentId := aid, timestamp := now, itype := rtype,
            idata := rdata } m) ∧
    (tier ≠ Tier.short →
      ((storeR prioOf scoreOf tsOf cf freshId aid now tier rtype rdata m).2 = true ↔
        50 < m.shortTerm.currentContext.length + m.shortTerm.activeLeads.length +
          m.shortTerm.recentActions.length)) ∧
    (tier = Tier.short →
      m.shortTerm.currentContext.length < 100 →
      m.shortTerm.activeLeads.length < 100 →
      m.shortTerm.recentActions.length < 100 →
      ((storeR prioOf scoreOf tsOf cf freshId aid now tier rtype rdata m).2 = true ↔
        50 < m.shortTerm.currentContext.length + m.shortTerm.activeLeads.length +
          m.shortTerm.recentActions.length +
          (if rtype ∈ shortListTags then 1 else 0))) := by
  refine ⟨rfl, ?_, ?_, ?_, ?_⟩
  · intro h
    unfold storeR at h ⊢
    dsimp only at h ⊢
    rw [if_pos h]
  · intro h
    unfold storeR at h ⊢
    dsimp only at h ⊢
    rw [if_neg (by simp [h])]
  · intro ht
    have h2 : (storeDispatch prioOf scoreOf tsOf tier
        { mid := freshId, agentId := aid, timestamp := now, itype := rtype,
          idata := rdata } m).shortTerm = m.shortTerm := by
      cases tier with
      | short => exact absurd rfl ht
      | long => rfl
      | episodic => rfl
      | semantic => rfl
    show (shouldConsolidateR (storeDispatch prioOf scoreOf tsOf tier
        { mid := freshId, agentId := aid, timestamp := now, itype := rtype,
          idata := rdata } m) = true) ↔ _
    rw [shouldConsolidateR, h2]
    simp [CONSOLIDATION_THRESHOLD]
  · intro ht hc ha hr
    subst ht
    have hlen := storeShort_length prioOf scoreOf tsOf
      { mid := freshId, agentId := aid, timestamp := now, itype := rtype,
        idata := rdata } m.shortTerm
      (by simpa [MAX_SHORT_TERM_ITEMS] using hc)
      (by simpa [MAX_SHORT_TERM_ITEMS] using ha)
      (by simpa [MAX_SHORT_TERM_ITEMS] using hr)
    show (shouldConsolidateR (storeDispatch prioOf scoreOf tsOf Tier.short
        { mid := freshId, agentId := aid, timestamp := now, itype := rtype,
          idata := rdata } m) = true) ↔ _
    rw [shouldConsolidateR]
    simp only [storeDispatch, decide_eq_true_iff, CONSOLIDATION_THRESHOLD]
    rw [hlen]


/-- **C10**: a `store()` write whose type tag is outside the fixed mapping
table leaves every long-term, episodic and semantic sub-collection
unchanged (silently dropped, no error), while the short tier funnels it
into `workingMemory` keyed by the tag name: the three list collections are
untouched, a repeated write under the same tag overwrites the first
(last-write-wins), and with unique keys exactly one slot exists per tag. -/
theorem c10_unrecognized_tag (prioOf scoreOf tsOf : P → ℚ) (item : MemoryItem P)
    (m : RMemory P) (d0 : P)
    (hkeys : (m.shortTerm.workingMemory.map Prod.fst).Nodup) :
    (item.itype ∉ longTags → storeLongTermR item m.longTerm = m.longTerm) ∧
    (item.itype ∉ episodicTags → storeEpisodicR item m.episodic = m.episodic) ∧
    (item.itype ∉ semanticTags → storeSemanticR item m.semantic = m.semantic) ∧
    (item.itype ∉ shortListTags →
      m.shortTerm.currentContext.length ≤ MAX_SHORT_TERM_ITEMS →
      m.shortTerm.activeLeads.length ≤ MAX_SHORT_TERM_ITEMS →
      m.shortTerm.recentActions.length ≤ MAX_SHORT_TERM_ITEMS →
      storeShortTermR prioOf scoreOf tsOf item m.shortTerm =
        { m.shortTerm with
            workingMemory := wmSet m.shortTerm.workingMemory item.itype item.idata }) ∧
    (wmGet (wmSet m.shortTerm.workingMemory item.itype item.idata) item.itype =
      some item.idata) ∧
    (wmGet (wmSet (wmSet m.shortTerm.workingMemory item.itype d0) item.itype item.idata)
      item.itype = some item.idata) ∧
    (((wmSet m.shortTerm.workingMemory item.itype item.idata).map Prod.fst).Nodup ∧
      ((wmSet m.shortTerm.workingMemory item.itype item.idata).map Prod.fst).count
        item.itype = 1) := by
  refine ⟨?_, ?_, ?_, ?_, wmGet_wmSet _ _ _, wmGet_wmSet _ _ _,
    wmSet_nodup_count _ _ _ hkeys⟩
  · intro h
    simp only [longTags, List.mem_cons, List.mem_singleton, not_or] at h
    unfold storeLongTermR
    rw [if_neg h.1, if_neg h.2.1, if_neg h.2.2.1, if_neg h.2.2.2.1]
  · intro h
    simp only [episodicTags, List.mem_cons, List.mem_singleton, not_or] at h
    unfold storeEpisodicR
    rw [if_neg (by simp [h.1, h.2.1]), if_neg h.2.2.1,
      if_neg (by simp [h.2.2.2.1, h.2.2.2.2.1]), if_neg h.2.2.2.2.2.1]
  · intro h
    simp only [semanticTags, List.mem_cons, List.mem_singleton, not_or] at h
    unfold storeSemanticR
    rw [if_neg h.1, if_neg h.2.1, if_neg h.2.2.1,
      if_neg (by simp [h.2.2.2.1, h.2.2.2.2.1, h.2.2.2.2.2.1, h.2.2.2.2.2.2.1])]
  · intro h hc ha hr
    simp only [shortListTags, List.mem_cons, List.mem_singleton, not_or] at h
    unfold storeShortTermR
    rw [if_neg h.1, if_neg (by simp [h.2.1, h.2.2.1]), if_neg h.2.2.2.1]
    exact enforce_eq_of_le prioOf scoreOf tsOf
      { m.shortTerm with
          workingMemory := wmSet m.shortTerm.workingMemory item.itype item.idata }
      hc ha hr

/-- Witness for C3: a concrete `campaign` write of payload `7` into an
empty store; the new entry is the payload itself. -/
theorem c3_store_appends_inner_data_witness :
    (7 : ℕ) ∈ allEntries (⟨⟨[], [], [], []⟩, ⟨[], [], [], []⟩, ⟨[], [], [], []⟩,
      ⟨[], [], [], []⟩⟩ : RMemory ℕ) ∨ (7 : ℕ) = 7 :=
  (c3_store_appends_inner_data (fun _ => 0) (fun _ => 0) (fun _ => 0) "id1" "agent" "id2"
      "agent" 0 0 Tier.long "campaign" 7
      ⟨⟨[], [], [], []⟩, ⟨[], [], [], []⟩, ⟨[], [], [], []⟩, ⟨[], [], [], []⟩⟩).2.1 7
    (by decide)

/-- Witness for C8: with 51 pre-existing context items, a long-tier write
triggers consolidation (51 > 50). -/
theorem c8_store_consolidation_trigger_witness :
    (storeR (fun (_ : ℕ) => (0 : ℚ)) (fun _ => 0) (fun _ => 0) (fun x => x) "id" "agent" 0
        Tier.long "campaign" 7
        ⟨⟨List.replicate 51 0, [], [], []⟩, ⟨[], [], [], []⟩, ⟨[], [], [], []⟩,
          ⟨[], [], [], []⟩⟩).2 = true ↔
      50 < (⟨⟨List.replicate 51 0, [], [], []⟩, ⟨[], [], [], []⟩, ⟨[], [], [], []⟩,
          ⟨[], [], [], []⟩⟩ : RMemory ℕ).shortTerm.currentContext.length +
        (⟨⟨List.replicate 51 0, [], [], []⟩, ⟨[], [], [], []⟩, ⟨[], [], [], []⟩,
          ⟨[], [], [], []⟩⟩ : RMemory ℕ).shortTerm.activeLeads.length +
        (⟨⟨List.replicate 51 0, [], [], []⟩, ⟨[], [], [], []⟩, ⟨[], [], [], []⟩,
          ⟨[], [], [], []⟩⟩ : RMemory ℕ).shortTerm.recentActions.length :=
  (c8_store_consolidation_trigger (fun _ => 0) (fun _ => 0) (fun _ => 0) (fun x => x)
      "id" "agent" 0 Tier.long "campaign" 7
      ⟨⟨List.replicate 51 0, [], [], []⟩, ⟨[], [], [], []⟩, ⟨[], [], [], []⟩,
        ⟨[], [], [], []⟩⟩).2.2.2.1 (by decide)

/-- Witness for C10: a `mystery_tag` write is dropped by the long-term
dispatcher and lands in `workingMemory` under its tag. -/
theorem c10_unrecognized_tag_witness :
    storeLongTermR
        { mid := "i", agentId := "a", timestamp := 0, itype := "mystery_tag",
          idata := (7 : ℕ) } ⟨[], [], [], []⟩ = ⟨[], [], [], []⟩ ∧
      wmGet (wmSet [("x", (1 : ℕ))] "mystery_tag" 7) "mystery_tag" = some 7 := by
  have h := c10_unrecognized_tag (fun (_ : ℕ) => (0 : ℚ)) (fun _ => 0) (fun _ => 0)
    { mid := "i", agentId := "a", timestamp := 0, itype := "mystery_tag", idata := (7 : ℕ) }
    ⟨⟨[], [], [], [("x", 1)]⟩, ⟨[], [], [], []⟩, ⟨[], [], [], []⟩, ⟨[], [], [], []⟩⟩ 5
    (by decide)
  exact ⟨h.1 (by decide), h.2.2.2.2.1⟩

end RouterLemmas

/-! ### Claims C4, C5, C6, C7: consolidation and compression -/

/-- **C4**: storing four `{type: email, outcome: positive}` interaction
records into the episodic tier of a fresh memory and then calling
`consolidate()` once appends exactly one `LearningPattern`, with pattern
`email_positive`, confidence `1.0` and applications `4`, to
`long_term.learningPatterns`. -/
theorem c4_email_positive_pattern :
    (consolidate 1000 0
        ([{ itype := "email", outcome := "positive", metadata := "m", sentiment := 0,
            timestamp := 0 },
          { itype := "email", outcome := "positive", metadata := "m", sentiment := 0,
            timestamp := 0 },
          { itype := "email", outcome := "positive", metadata := "m", sentiment := 0,
            timestamp := 0 },
          { itype := "email", outcome := "positive", metadata := "m", sentiment := 0,
            timestamp := 0 }].foldl storeSuccessfulInteraction emptyCMemory)).learningPatterns
      = [{ pattern := "email_positive", confidence := 1, applications := 4,
           successRate := 1, lastUsed := 1000, context := ["m", "m", "m", "m"] }] := by
  norm_num [consolidate, consolidateShortToLong, extractPatternsFromEpisodic,
    findInteractionPatterns, addInteraction, bumpPat, interKey, isSuccessOutcome,
    findDecisionPatterns, updateSemanticKnowledge, updateConceptRelationships, pairsOf,
    applyMemoryDecay, decayPattern, decayNode, emptyCMemory, storeSuccessfulInteraction,
    MEMORY_DECAY_FACTOR]
  rfl

theorem consolidate_preserves_episodic (now : ℚ) (seed : ℕ) (m : CMemory) :
    (consolidate now seed m).successfulInteractions = m.successfulInteractions ∧
    (consolidate now seed m).decisionOutcomes = m.decisionOutcomes :=
  ⟨rfl, rfl⟩

/-- With no episodic pattern sources, a `consolidate()` call changes
`learningPatterns` exactly by the decay-and-filter pass. -/
theorem consolidate_patterns (now : ℚ) (seed : ℕ) (m : CMemory)
    (hE : m.successfulInteractions = []) (hD : m.decisionOutcomes = []) :
    (consolidate now seed m).learningPatterns
      = (m.learningPatterns.map (decayPattern now)).filter
          (fun p => decide ((0.1 : ℚ) < p.confidence)) := by
  have h1 : (updateSemanticKnowledge now seed (extractPatternsFromEpisodic now
      (consolidateShortToLong m))).learningPatterns = m.learningPatterns := by
    show (extractPatternsFromEpisodic now (consolidateShortToLong m)).learningPatterns = _
    unfold extractPatternsFromEpisodic
    show (consolidateShortToLong m).learningPatterns ++
        findInteractionPatterns now (consolidateShortToLong m).successfulInteractions ++
        findDecisionPatterns now (consolidateShortToLong m).decisionOutcomes = _
    have he2 : (consolidateShortToLong m).successfulInteractions = [] := hE
    have hd2 : (consolidateShortToLong m).decisionOutcomes = [] := hD
    rw [he2, hd2]
    simp [findInteractionPatterns, findDecisionPatterns]
    rfl
  show ((updateSemanticKnowledge now seed (extractPatternsFromEpisodic now
      (consolidateShortToLong m))).learningPatterns.map (decayPattern now)).filter
        (fun p => decide ((0.1 : ℚ) < p.confidence)) = _
  rw [h1]

theorem decayPattern_eq_pow_one (now : ℚ) (p : LearningPattern) :
    decayPattern now p = decayPatternPow now 1 p := by
  unfold decayPattern decayPatternPow MEMORY_DECAY_FACTOR
  split_ifs with h
  · simp [pow_one]
  · rfl

theorem pow95_le (k : ℕ) : ((0.95 : ℚ)) ^ (k + 1) ≤ 0.95 := by
  have h := Bound.pow_le_pow_right_of_le_one_or_one_le
    (a := (0.95 : ℚ)) (n := k + 1) (m := 1)
    (Or.inr ⟨by norm_num, by norm_num, Nat.succ_le_succ (Nat.zero_le k)⟩)
  simpa using h

theorem pos_of_mul_pow_gt (c : ℚ) (k : ℕ) (h : (0.1 : ℚ) < c * 0.95 ^ k) : 0 < c := by
  by_contra hc
  push_neg at hc
  have hq : (0 : ℚ) < 0.95 ^ k := pow_pos (by norm_num) k
  nlinarith

/-- One decay pass composed with `k` claimed passes is `k + 1` claimed
passes (on the survivors of the `0.1` floor). -/
theorem c5_step (now : ℚ) (k : ℕ) (l : List LearningPattern) :
    (((l.map (decayPattern now)).filter
        (fun p => decide ((0.1 : ℚ) < p.confidence))).map (decayPatternPow now k)).filter
      (fun p => decide ((0.1 : ℚ) < p.confidence))
    = (l.map (decayPatternPow now (k + 1))).filter
        (fun p => decide ((0.1 : ℚ) < p.confidence)) := by
  induction l with
  | nil => rfl
  | cons p rest ih =>
    simp only [List.map_cons]
    by_cases haged : 30 < (now - p.lastUsed) / (1000 * 60 * 60 * 24)
    · rw [show decayPattern now p
          = { p with confidence := p.confidence * 0.95 } from by
        unfold decayPattern MEMORY_DECAY_FACTOR
        rw [if_pos haged]]
      by_cases h1 : (0.1 : ℚ) < p.confidence * 0.95
      · rw [List.filter_cons_of_pos (by simpa using h1), List.map_cons,
          show decayPatternPow now k { p with confidence := p.confidence * 0.95 }
            = { p with confidence := p.confidence * 0.95 * 0.95 ^ k } from by
            unfold decayPatternPow
            rw [if_pos haged]]
        by_cases h2 : (0.1 : ℚ) < p.confidence * 0.95 * 0.95 ^ k
        · rw [List.filter_cons_of_pos (by simpa using h2),
            show decayPatternPow now (k + 1) p
              = { p with confidence := p.confidence * 0.95 ^ (k + 1) } from by
              unfold decayPatternPow
              rw [if_pos haged],
            List.filter_cons_of_pos (by
              simp only [decide_eq_true_iff]
              calc (0.1 : ℚ) < p.confidence * 0.95 * 0.95 ^ k := h2
                _ = p.confidence * 0.95 ^ (k + 1) := by ring), ih]
          have hrec : ({ p with confidence := p.confidence * 0.95 * 0.95 ^ k } : LearningPattern)
              = { p with confidence := p.confidence * 0.95 ^ (k + 1) } := by
            simp only [LearningPattern.mk.injEq, and_true, true_and]
            ring
          rw [hrec]
        · rw [List.filter_cons_of_neg (by simpa using h2),
            show decayPatternPow now (k + 1) p
              = { p with confidence := p.confidence * 0.95 ^ (k + 1) } from by
              unfold decayPatternPow
              rw [if_pos haged],
            List.filter_cons_of_neg (by
              simp only [decide_eq_true_iff]
              intro hcon
              exact h2 (by calc (0.1 : ℚ) < p.confidence * 0.95 ^ (k + 1) := hcon
                _ = p.confidence * 0.95 * 0.95 ^ k := by ring)), ih]
      · rw [List.filter_cons_of_neg (by simpa using h1),
          show decayPatternPow now (k + 1) p
            = { p with confidence := p.confidence * 0.95 ^ (k + 1) } from by
            unfold decayPatternPow
            rw [if_pos haged],
          List.filter_cons_of_neg (by
            simp only [decide_eq_true_iff]
            intro hcon
            have hcpos : 0 < p.confidence := pos_of_mul_pow_gt p.confidence (k + 1) hcon
            have hle : p.confidence * 0.95 ^ (k + 1) ≤ p.confidence * 0.95 :=
              mul_le_mul_of_nonneg_left (pow95_le k) (le_of_lt hcpos)
            exact h1 (lt_of_lt_of_le hcon hle)), ih]
    · rw [show decayPattern now p = p from by
        unfold decayPattern
        rw [if_neg haged],
        show decayPatternPow now (k + 1) p = p from by
          unfold decayPatternPow
          rw [if_neg haged]]
      by_cases h1 : (0.1 : ℚ) < p.confidence
      · rw [List.filter_cons_of_pos (by simpa using h1), List.map_cons,
          show decayPatternPow now k p = p from by
            unfold decayPatternPow
            rw [if_neg haged],
          List.filter_cons_of_pos (by simpa using h1),
          List.filter_cons_of_pos (by simpa using h1), ih]
      · rw [List.filter_cons_of_neg (by simpa using h1),
          List.filter_cons_of_neg (by simpa using h1), ih]

theorem exists_decay_bound (l : List LearningPattern) :
    ∃ N : ℕ, ∀ p ∈ l, ∀ k : ℕ, N ≤ k → p.confidence * 0.95 ^ k ≤ 0.1 := by
  induction l with
  | nil => exact ⟨0, by simp⟩
  | cons p rest ih =>
    obtain ⟨N1, h1⟩ := ih
    by_cases hc : 0 < p.confidence
    · obtain ⟨n0, hn0⟩ := exists_pow_lt_of_lt_one (x := (0.1 : ℚ) / p.confidence)
        (by positivity) (by norm_num : (0.95 : ℚ) < 1)
      refine ⟨max n0 N1, ?_⟩
      intro q hq k hk
      rcases List.mem_cons.mp hq with hq | hq
      · subst hq
        have hpk : (0.95 : ℚ) ^ k ≤ 0.95 ^ n0 :=
          Bound.pow_le_pow_right_of_le_one_or_one_le
            (Or.inr ⟨by norm_num, by norm_num, le_trans (le_max_left _ _) hk⟩)
        have hlt : q.confidence * 0.95 ^ n0 < 0.1 := by
          have := mul_lt_mul_of_pos_left hn0 hc
          rwa [mul_div_cancel₀ _ (ne_of_gt hc)] at this
        have : q.confidence * 0.95 ^ k ≤ q.confidence * 0.95 ^ n0 :=
          mul_le_mul_of_nonneg_left hpk (le_of_lt hc)
        linarith
      · exact h1 q hq k (le_trans (le_max_right _ _) hk)
    · push_neg at hc
      refine ⟨N1, ?_⟩
      intro q hq k hk
      rcases List.mem_cons.mp hq with hq | hq
      · subst hq
        have hq0 : (0 : ℚ) ≤ 0.95 ^ k := le_of_lt (pow_pos (by norm_num) k)
        nlinarith
      · exact h1 q hq k hk

set_option maxHeartbeats 800000 in
/-- **C5**: each `consolidate()` call multiplies the confidence of every
`learningPatterns` entry whose `lastUsed` age exceeds 30 days by `0.95`
and then deletes every pattern with confidence at most `0.1`; repeated
calls on an untouched stale pattern strictly decrease its confidence
(`0.95ⁿ·c` after `n` calls) until the pattern is deleted; every
`domainKnowledge` node older than 60 days likewise has its confidence
multiplied by `0.95` but is never deleted by this step.  (The episodic
pattern sources are empty so that no freshly mined pattern is appended
alongside; `consolidate` never modifies them, so this is preserved across
the iteration.) -/
theorem c5_decay_monotonicity (now : ℚ) (seed : ℕ) (m : CMemory)
    (hE : m.successfulInteractions = []) (hD : m.decisionOutcomes = []) :
    ((consolidate now seed m).learningPatterns
      = (m.learningPatterns.map (decayPattern now)).filter
          (fun p => decide ((0.1 : ℚ) < p.confidence))) ∧
    (∀ p ∈ m.learningPatterns, 30 < (now - p.lastUsed) / (1000 * 60 * 60 * 24) →
      (decayPattern now p).confidence = p.confidence * 0.95 ∧
      (0 < p.confidence → (decayPattern now p).confidence < p.confidence)) ∧
    (∀ p ∈ m.learningPatterns, ¬ 30 < (now - p.lastUsed) / (1000 * 60 * 60 * 24) →
      decayPattern now p = p) ∧
    (∀ n : ℕ, (consolidateIter now seed (n + 1) m).learningPatterns
      = (m.learningPatterns.map (decayPatternPow now (n + 1))).filter
          (fun p => decide ((0.1 : ℚ) < p.confidence))) ∧
    ((∀ p ∈ m.learningPatterns, 30 < (now - p.lastUsed) / (1000 * 60 * 60 * 24)) →
      ∃ n : ℕ, (consolidateIter now seed n m).learningPatterns = []) ∧
    ((applyMemoryDecay now m).domainKnowledge.length = m.domainKnowledge.length) ∧
    (∀ nd ∈ m.domainKnowledge,
      (60 < (now - nd.lastUpdated) / (1000 * 60 * 60 * 24) →
        { nd with confidence := nd.confidence * 0.95 } ∈
          (applyMemoryDecay now m).domainKnowledge) ∧
      (¬ 60 < (now - nd.lastUpdated) / (1000 * 60 * 60 * 24) →
        nd ∈ (applyMemoryDecay now m).domainKnowledge)) := by
  have key : ∀ n : ℕ, ∀ m' : CMemory, m'.successfulInteractions = [] →
      m'.decisionOutcomes = [] →
      (consolidateIter now seed (n + 1) m').learningPatterns
        = (m'.learningPatterns.map (decayPatternPow now (n + 1))).filter
            (fun p => decide ((0.1 : ℚ) < p.confidence)) := by
    intro n
    induction n with
    | zero =>
      intro m' hE2 hD2
      show (consolidate now seed m').learningPatterns = _
      rw [consolidate_patterns now seed m' hE2 hD2]
      congr 1
      exact List.map_congr_left (fun p _ => decayPattern_eq_pow_one now p)
    | succ k ihk =>
      intro m' hE2 hD2
      show (consolidateIter now seed (k + 1) (consolidate now seed m')).learningPatterns = _
      rw [ihk (consolidate now seed m')
          (((consolidate_preserves_episodic now seed m').1).trans hE2)
          (((consolidate_preserves_episodic now seed m').2).trans hD2),
        consolidate_patterns now seed m' hE2 hD2, c5_step]
  refine ⟨consolidate_patterns now seed m hE hD, ?_, ?_, fun n => key n m hE hD, ?_, ?_, ?_⟩
  · intro p _ haged
    unfold decayPattern MEMORY_DECAY_FACTOR
    rw [if_pos haged]
    refine ⟨rfl, ?_⟩
    intro hp
    show p.confidence * 0.95 < p.confidence
    nlinarith
  · intro p _ haged
    unfold decayPattern
    rw [if_neg haged]
  · intro hall
    obtain ⟨N, hN⟩ := exists_decay_bound m.learningPatterns
    refine ⟨N + 1, ?_⟩
    rw [key N m hE hD, List.filter_eq_nil_iff]
    intro q hq
    rcases List.mem_map.mp hq with ⟨p, hp, hqe⟩
    have haged := hall p hp
    rw [← hqe]
    unfold decayPatternPow
    rw [if_pos haged]
    simp only [decide_eq_true_eq, not_lt]
    exact hN p hp (N + 1) (Nat.le_succ N)
  · show (m.domainKnowledge.map (decayNode now)).length = _
    exact List.length_map _ _
  · intro nd hnd
    constructor
    · intro haged
      show _ ∈ m.domainKnowledge.map (decayNode now)
      refine List.mem_map.mpr ⟨nd, hnd, ?_⟩
      unfold decayNode MEMORY_DECAY_FACTOR
      rw [if_pos haged]
    · intro haged
      show _ ∈ m.domainKnowledge.map (decayNode now)
      refine List.mem_map.mpr ⟨nd, hnd, ?_⟩
      unfold decayNode
      rw [if_neg haged]

/-- Witness for C5: one call on a memory holding one 100-day-stale
pattern. -/
theorem c5_decay_monotonicity_witness :
    (consolidate 8640000000 0
        { emptyCMemory with learningPatterns :=
            [{ pattern := "x", confidence := 0.5, applications := 1, successRate := 1,
               lastUsed := 0, context := [] }] }).learningPatterns
      = (([{ pattern := "x", confidence := 0.5, applications := 1, successRate := 1,
             lastUsed := 0, context := [] }] : List LearningPattern).map
          (decayPattern 8640000000)).filter
          (fun p => decide ((0.1 : ℚ) < p.confidence)) :=
  (c5_decay_monotonicity 8640000000 0
    { emptyCMemory with learningPatterns :=
        [{ pattern := "x", confidence := 0.5, applications := 1, successRate := 1,
           lastUsed := 0, context := [] }] } rfl rfl).1

section ConceptLinkLemmas

/-- Boolean truth-to-falsity conversion. -/
theorem bool_eq_false {b : Bool} (h : ¬ b = true) : b = false := by
  cases b
  · rfl
  · exact absurd rfl h

/-- Both components of a pair produced by `pairsOf` are members of the
underlying list. -/
theorem mem_pairsOf {γ : Type} {l : List γ} {pq : γ × γ} (h : pq ∈ pairsOf l) :
    pq.1 ∈ l ∧ pq.2 ∈ l := by
  induction l with
  | nil => simp [pairsOf] at h
  | cons c rest ih =>
    simp only [pairsOf, List.mem_append, List.mem_map] at h
    rcases h with ⟨o, ho, rfl⟩ | h
    · exact ⟨List.mem_cons_self _ _, List.mem_cons_of_mem _ ho⟩
    · exact ⟨List.mem_cons_of_mem _ (ih h).1, List.mem_cons_of_mem _ (ih h).2⟩

/-- `connB` is symmetric in its two id arguments. -/
theorem connB_comm (x y : String) (r : Relationship) : connB x y r = connB y x r :=
  Bool.or_comm _ _

/-- How `connB x y` evaluates on the relationship `mkRel a b`. -/
theorem connB_mkRel (x y : String) (a b : KnowledgeNode) :
    connB x y (mkRel a b) =
      ((a.nid == x && b.nid == y) || (a.nid == y && b.nid == x)) := rfl

/-- When `mkRel a b` connects `x` and `y`, the predicates
`connB a.nid b.nid` and `connB x y` agree on every relationship. -/
theorem connB_ext {x y : String} {a b : KnowledgeNode}
    (h : connB x y (mkRel a b) = true) (r : Relationship) :
    connB a.nid b.nid r = connB x y r := by
  rw [connB_mkRel] at h
  simp only [Bool.or_eq_true, Bool.and_eq_true, beq_iff_eq] at h
  rcases h with ⟨h1, h2⟩ | ⟨h1, h2⟩
  · rw [h1, h2]
  · rw [h1, h2, connB_comm]

/-- The pair loop of `updateConceptRelationships` only ever appends. -/
theorem mem_foldl_linkStep (P : List (KnowledgeNode × KnowledgeNode))
    (rels : List Relationship) {r : Relationship} (h : r ∈ rels) :
    r ∈ P.foldl linkStep rels := by
  induction P generalizing rels with
  | nil => exact h
  | cons p rest ih =>
    rw [List.foldl_cons]
    refine ih _ ?_
    unfold linkStep
    split
    · exact List.mem_append_left _ h
    · exact h

/-- The pair loop preserves truth of `any`. -/
theorem any_foldl_linkStep (q : Relationship → Bool)
    (P : List (KnowledgeNode × KnowledgeNode)) (rels : List Relationship)
    (h : rels.any q = true) : (P.foldl linkStep rels).any q = true := by
  rcases List.any_eq_true.1 h with ⟨r, hr, hq⟩
  exact List.any_eq_true.2 ⟨r, mem_foldl_linkStep P rels hr, hq⟩

/-- If no pair of `P` connects `x` and `y`, the pair loop does not change
the number of relationships connecting `x` and `y`. -/
theorem countP_foldl_linkStep_eq (x y : String)
    (P : List (KnowledgeNode × KnowledgeNode)) (rels : List Relationship)
    (hnone : ∀ pq ∈ P, connB x y (mkRel pq.1 pq.2) = false) :
    (P.foldl linkStep rels).countP (connB x y) = rels.countP (connB x y) := by
  induction P generalizing rels with
  | nil => rfl
  | cons p rest ih =>
    rw [List.foldl_cons]
    have h2 : ∀ pq ∈ rest, connB x y (mkRel pq.1 pq.2) = false :=
      fun pq hq => hnone pq (List.mem_cons_of_mem _ hq)
    rw [ih (linkStep rels p) h2]
    unfold linkStep
    split
    · rw [List.countP_append, List.countP_cons]
      simp [hnone p (List.mem_cons_self _ _)]
    · rfl

set_option maxHeartbeats 800000 in
/-- If exactly one pair of `P` connects `x` and `y`, that pair clears the
similarity bar, and no existing relationship connects `x` and `y`, then
the pair loop produces exactly one connecting relationship and it is the
freshly built `mkRel` of the matching pair. -/
theorem countP_foldl_linkStep_one (x y : String)
    (P : List (KnowledgeNode × KnowledgeNode)) (rels : List Relationship)
    (hcount : P.countP (fun pq => connB x y (mkRel pq.1 pq.2)) = 1)
    (hsim : ∀ pq ∈ P, connB x y (mkRel pq.1 pq.2) = true →
      (0.6 : ℚ) < conceptSimilarity pq.1 pq.2)
    (hrels : rels.countP (connB x y) = 0) :
    (P.foldl linkStep rels).countP (connB x y) = 1 ∧
    ∀ pq ∈ P, connB x y (mkRel pq.1 pq.2) = true →
      mkRel pq.1 pq.2 ∈ P.foldl linkStep rels := by
  induction P generalizing rels with
  | nil => simp at hcount
  | cons p rest ih =>
    rw [List.foldl_cons]
    by_cases hm : connB x y (mkRel p.1 p.2) = true
    · have hrest : rest.countP (fun pq => connB x y (mkRel pq.1 pq.2)) = 0 := by
        have hc2 := hcount
        rw [List.countP_cons] at hc2
        simp only [hm, if_pos] at hc2
        omega
      have hnone : ∀ pq ∈ rest, connB x y (mkRel pq.1 pq.2) = false := by
        intro pq hq
        exact bool_eq_false (by simpa using List.countP_eq_zero.1 hrest pq hq)
      have hany : rels.any (connB p.1.nid p.2.nid) = false := by
        rw [List.any_eq_false]
        intro r hr
        rw [connB_ext hm r]
        simpa using List.countP_eq_zero.1 hrels r hr
      have hstep : linkStep rels p = rels ++ [mkRel p.1 p.2] := by
        have hs := hsim p (List.mem_cons_self _ _) hm
        simp [linkStep, hany, decide_eq_true hs]
      have hcnt1 : (rels ++ [mkRel p.1 p.2]).countP (connB x y) = 1 := by
        rw [List.countP_append, hrels, List.countP_cons]
        simp [hm]
      rw [hstep]
      constructor
      · rw [countP_foldl_linkStep_eq x y rest _ hnone, hcnt1]
      · intro pq hq hconn
        rcases List.mem_cons.1 hq with rfl | hq'
        · exact mem_foldl_linkStep _ _
            (List.mem_append_right _ (List.mem_singleton.2 rfl))
        · exact absurd hconn (by simp [hnone pq hq'])
    · have hm' : connB x y (mkRel p.1 p.2) = false := bool_eq_false hm
      have hcount' : rest.countP (fun pq => connB x y (mkRel pq.1 pq.2)) = 1 := by
        have hc2 := hcount
        rw [List.countP_cons] at hc2
        simpa [hm'] using hc2
      have hrels' : (linkStep rels p).countP (connB x y) = 0 := by
        unfold linkStep
        split
        · rw [List.countP_append, hrels, List.countP_cons]
          simp [hm']
        · exact hrels
      have hsim' : ∀ pq ∈ rest, connB x y (mkRel pq.1 pq.2) = true →
          (0.6 : ℚ) < conceptSimilarity pq.1 pq.2 :=
        fun pq hq => hsim pq (List.mem_cons_of_mem _ hq)
      obtain ⟨h1, h2⟩ := ih (linkStep rels p) hcount' hsim' hrels'
      refine ⟨h1, ?_⟩
      intro pq hq hconn
      rcases List.mem_cons.1 hq with rfl | hq'
      · simp [hm'] at hconn
      · exact h2 pq hq' hconn

set_option maxHeartbeats 800000 in
/-- Under unique node ids, a pair `(a, b)` drawn from the nested-loop pair
list has distinct ids and is the unique entry of that list connecting
`a.nid` and `b.nid`. -/
theorem countP_pairsOf_eq_one {l : List KnowledgeNode} {a b : KnowledgeNode}
    (hnodup : (l.map KnowledgeNode.nid).Nodup)
    (hpair : (a, b) ∈ pairsOf l) :
    a.nid ≠ b.nid ∧
    (pairsOf l).countP (fun pq => connB a.nid b.nid (mkRel pq.1 pq.2)) = 1 ∧
    (∀ pq ∈ pairsOf l,
      connB a.nid b.nid (mkRel pq.1 pq.2) = true → pq = (a, b)) := by
  induction l with
  | nil => simp [pairsOf] at hpair
  | cons c rest ih =>
    rw [List.map_cons, List.nodup_cons] at hnodup
    obtain ⟨hc, hrest⟩ := hnodup
    have hmain := hpair
    simp only [pairsOf, List.mem_append, List.mem_map] at hmain
    rcases hmain with ⟨o, ho, heq⟩ | hmem
    · injection heq with h1 h2
      have h1' : a = c := h1.symm
      have h2' : b = o := h2.symm
      subst h1'
      subst h2'
      have hbnid : b.nid ∈ rest.map KnowledgeNode.nid := List.mem_map_of_mem _ ho
      have hne : a.nid ≠ b.nid := fun h => hc (h ▸ hbnid)
      have hq : ∀ o2 : KnowledgeNode,
          connB a.nid b.nid (mkRel a o2) = (o2.nid == b.nid) := by
        intro o2
        rw [connB_mkRel]
        have e1 : (a.nid == a.nid) = true := beq_self_eq_true _
        have e2 : (a.nid == b.nid) = false := beq_eq_false_iff_ne.2 hne
        rw [e1, e2]
        simp
      have hmap : (rest.map (fun o2 => (a, o2))).countP
          (fun pq => connB a.nid b.nid (mkRel pq.1 pq.2)) =
          rest.countP (fun o2 => o2.nid == b.nid) := by
        rw [List.countP_map]
        exact List.countP_congr (fun o2 _ => by simp [Function.comp, hq o2])
      have hcnt_map : rest.countP (fun o2 => o2.nid == b.nid) = 1 := by
        have hcc : (rest.map KnowledgeNode.nid).count b.nid = 1 :=
          List.count_eq_one_of_mem hrest hbnid
        rw [List.count_eq_countP, List.countP_map] at hcc
        exact hcc
      have hrest0 : (pairsOf rest).countP
          (fun pq => connB a.nid b.nid (mkRel pq.1 pq.2)) = 0 := by
        rw [List.countP_eq_zero]
        intro pq hpq2
        have hn1 : pq.1.nid ≠ a.nid :=
          fun h => hc (h ▸ List.mem_map_of_mem _ (mem_pairsOf hpq2).1)
        have hn2 : pq.2.nid ≠ a.nid :=
          fun h => hc (h ▸ List.mem_map_of_mem _ (mem_pairsOf hpq2).2)
        simp [connB_mkRel, hn1, hn2]
      have hcnt : (pairsOf (a :: rest)).countP
          (fun pq => connB a.nid b.nid (mkRel pq.1 pq.2)) = 1 := by
        simp only [pairsOf]
        rw [List.countP_append, hmap, hcnt_map, hrest0]
      refine ⟨hne, hcnt, ?_⟩
      intro pq hpq2 hconn
      simp only [pairsOf, List.mem_append, List.mem_map] at hpq2
      rcases hpq2 with ⟨o2, ho2, heq2⟩ | hpq3
      · subst heq2
        dsimp only at hconn
        rw [hq o2] at hconn
        have ho2b : o2 = b := by
          have hh : o2.nid = b.nid := by simpa using hconn
          exact List.inj_on_of_nodup_map hrest ho2 ho hh
        rw [ho2b]
      · exact absurd hconn (by simpa using List.countP_eq_zero.1 hrest0 pq hpq3)
    · have ha : a ∈ rest := (mem_pairsOf hmem).1
      have hb : b ∈ rest := (mem_pairsOf hmem).2
      obtain ⟨hne, hcnt, huniq⟩ := ih hrest hmem
      have hca : c.nid ≠ a.nid := fun h => hc (h ▸ List.mem_map_of_mem _ ha)
      have hcb : c.nid ≠ b.nid := fun h => hc (h ▸ List.mem_map_of_mem _ hb)
      have hmap0 : (rest.map (fun o2 => (c, o2))).countP
          (fun pq => connB a.nid b.nid (mkRel pq.1 pq.2)) = 0 := by
        rw [List.countP_eq_zero]
        intro pq hpq2
        rcases List.mem_map.1 hpq2 with ⟨o2, ho2, rfl⟩
        simp [connB_mkRel, hca, hcb]
      refine ⟨hne, ?_, ?_⟩
      · simp only [pairsOf]
        rw [List.countP_append, hmap0, hcnt]
      · intro pq hpq2 hconn
        simp only [pairsOf, List.mem_append] at hpq2
        rcases hpq2 with hpq3 | hpq3
        · exact absurd hconn (by simpa using List.countP_eq_zero.1 hmap0 pq hpq3)
        · exact huniq pq hpq3 hconn

/-- After one pass of the pair loop, every pair clearing the similarity
bar is connected by some relationship. -/
theorem any_connB_foldl (P : List (KnowledgeNode × KnowledgeNode))
    (rels : List Relationship) (pq : KnowledgeNode × KnowledgeNode)
    (hpq : pq ∈ P) (hs : (0.6 : ℚ) < conceptSimilarity pq.1 pq.2) :
    (P.foldl linkStep rels).any (connB pq.1.nid pq.2.nid) = true := by
  induction P generalizing rels with
  | nil => simp at hpq
  | cons p rest ih =>
    rw [List.foldl_cons]
    rcases List.mem_cons.1 hpq with rfl | h
    · have h1 : (linkStep rels pq).any (connB pq.1.nid pq.2.nid) = true := by
        by_cases ha : rels.any (connB pq.1.nid pq.2.nid) = true
        · unfold linkStep
          split
          · rw [List.any_append]
            simp [ha]
          · exact ha
        · have ha' : rels.any (connB pq.1.nid pq.2.nid) = false := bool_eq_false ha
          have hcond : linkStep rels pq = rels ++ [mkRel pq.1 pq.2] := by
            simp [linkStep, ha', decide_eq_true hs]
          rw [hcond, List.any_append]
          have hself : connB pq.1.nid pq.2.nid (mkRel pq.1 pq.2) = true := by
            rw [connB_mkRel]
            simp
          simp [hself]
      exact any_foldl_linkStep _ rest _ h1
    · exact ih (linkStep rels p) h

/-- A pair loop whose every step is the identity leaves the relationship
list unchanged. -/
theorem foldl_linkStep_fixed (P : List (KnowledgeNode × KnowledgeNode))
    (rels : List Relationship) (h : ∀ pq ∈ P, linkStep rels pq = rels) :
    P.foldl linkStep rels = rels := by
  induction P with
  | nil => rfl
  | cons p rest ih =>
    rw [List.foldl_cons, h p (List.mem_cons_self _ _)]
    exact ih (fun pq hq => h pq (List.mem_cons_of_mem _ hq))

/-- Running the pair loop a second time inserts nothing: every pair above
the similarity bar is already connected after the first run. -/
theorem foldl_linkStep_idem (dk : List KnowledgeNode) (rels : List Relationship) :
    (pairsOf dk).foldl linkStep ((pairsOf dk).foldl linkStep rels) =
      (pairsOf dk).foldl linkStep rels := by
  apply foldl_linkStep_fixed
  intro pq hpq
  by_cases hs : (0.6 : ℚ) < conceptSimilarity pq.1 pq.2
  · have ha := any_connB_foldl (pairsOf dk) rels pq hpq hs
    simp [linkStep, ha]
  · simp [linkStep, hs]

/-- Decay does not change a node's concept or description, hence not the
similarity. -/
theorem conceptSimilarity_decayNode (now : ℚ) (a b : KnowledgeNode) :
    conceptSimilarity (decayNode now a) (decayNode now b) = conceptSimilarity a b := by
  unfold decayNode
  split <;> split <;> rfl

/-- Decay does not change a node's id. -/
theorem nid_decayNode (now : ℚ) (a : KnowledgeNode) :
    (decayNode now a).nid = a.nid := by
  unfold decayNode
  split <;> rfl

/-- Decay does not change the relationship the linker would build. -/
theorem mkRel_decayNode (now : ℚ) (a b : KnowledgeNode) :
    mkRel (decayNode now a) (decayNode now b) = mkRel a b := by
  unfold mkRel
  rw [nid_decayNode, nid_decayNode, conceptSimilarity_decayNode]

/-- One linker step is invariant under decaying the pair. -/
theorem linkStep_decayNode (now : ℚ) (rels : List Relationship)
    (pq : KnowledgeNode × KnowledgeNode) :
    linkStep rels (decayNode now pq.1, decayNode now pq.2) = linkStep rels pq := by
  unfold linkStep
  simp only [conceptSimilarity_decayNode, nid_decayNode, mkRel_decayNode]

/-- `pairsOf` commutes with `map`. -/
theorem pairsOf_map {γ δ : Type} (f : γ → δ) (l : List γ) :
    pairsOf (l.map f) = (pairsOf l).map (Prod.map f f) := by
  induction l with
  | nil => rfl
  | cons c rest ih =>
    simp [pairsOf, ih, List.map_map, Function.comp]

/-- The pair loop is invariant under decaying the node list. -/
theorem foldl_linkStep_map_decay (now : ℚ)
    (P : List (KnowledgeNode × KnowledgeNode)) (rels : List Relationship) :
    (P.map (Prod.map (decayNode now) (decayNode now))).foldl linkStep rels =
      P.foldl linkStep rels := by
  induction P generalizing rels with
  | nil => rfl
  | cons p rest ih =>
    rw [List.map_cons, List.foldl_cons, List.foldl_cons,
      show Prod.map (decayNode now) (decayNode now) p =
        (decayNode now p.1, decayNode now p.2) from rfl,
      linkStep_decayNode]
    exact ih _

/-- With no pending contextual learnings, one `consolidate()` call leaves
`relationships` as the pair-linking fold over the unchanged node list,
decays each node in place, and preserves the empty learning list. -/
theorem consolidate_fields (now : ℚ) (seed : ℕ) (m : CMemory)
    (hcl : m.contextualLearnings = []) :
    (consolidate now seed m).relationships =
      (pairsOf m.domainKnowledge).foldl linkStep m.relationships ∧
    (consolidate now seed m).domainKnowledge =
      m.domainKnowledge.map (decayNode now) ∧
    (consolidate now seed m).contextualLearnings = [] := by
  unfold consolidate applyMemoryDecay updateSemanticKnowledge
    extractPatternsFromEpisodic consolidateShortToLong updateConceptRelationships
  simp [hcl]

end ConceptLinkLemmas

set_option maxHeartbeats 1000000 in
/-- **C6**: for a pair of `domainKnowledge` nodes (under the unique node
ids that `uuidv4` guarantees) whose Jaccard word-set similarity exceeds
`0.6` and with no existing relationship connecting them in either
direction, `updateConceptRelationships` — and hence `consolidate()`, here
with no pending contextual learnings, which would insert further nodes —
inserts exactly one connecting relationship, namely the `related_to`
relationship whose strength is the similarity; a second call inserts no
duplicate. -/
theorem c6_concept_linking (now : ℚ) (seed : ℕ) (m : CMemory)
    (a b : KnowledgeNode)
    (hpair : (a, b) ∈ pairsOf m.domainKnowledge)
    (hnodup : (m.domainKnowledge.map KnowledgeNode.nid).Nodup)
    (hsim : (0.6 : ℚ) < conceptSimilarity a b)
    (hnorel : m.relationships.countP (connB a.nid b.nid) = 0) :
    ((updateConceptRelationships m).relationships.countP (connB a.nid b.nid) = 1
      ∧ mkRel a b ∈ (updateConceptRelationships m).relationships
      ∧ (mkRel a b).rtype = "related_to"
      ∧ (mkRel a b).strength = conceptSimilarity a b)
    ∧ (updateConceptRelationships (updateConceptRelationships m)).relationships
        = (updateConceptRelationships m).relationships
    ∧ (m.contextualLearnings = [] →
        (consolidate now seed m).relationships.countP (connB a.nid b.nid) = 1
        ∧ (consolidate now seed (consolidate now seed m)).relationships
            = (consolidate now seed m).relationships) := by
  obtain ⟨hne, hcnt, huniq⟩ := countP_pairsOf_eq_one hnodup hpair
  have hsim' : ∀ pq ∈ pairsOf m.domainKnowledge,
      connB a.nid b.nid (mkRel pq.1 pq.2) = true →
      (0.6 : ℚ) < conceptSimilarity pq.1 pq.2 := by
    intro pq hpq hconn
    rw [huniq pq hpq hconn]
    exact hsim
  obtain ⟨h1, h2⟩ := countP_foldl_linkStep_one a.nid b.nid
    (pairsOf m.domainKnowledge) m.relationships hcnt hsim' hnorel
  have hconnab : connB a.nid b.nid (mkRel a b) = true := by
    rw [connB_mkRel]
    simp
  have hmem : mkRel a b ∈ (pairsOf m.domainKnowledge).foldl linkStep m.relationships :=
    h2 (a, b) hpair hconnab
  refine ⟨⟨h1, hmem, rfl, rfl⟩, ?_, ?_⟩
  · exact foldl_linkStep_idem m.domainKnowledge m.relationships
  · intro hcl
    obtain ⟨e1, e2, e3⟩ := consolidate_fields now seed m hcl
    refine ⟨by rw [e1]; exact h1, ?_⟩
    obtain ⟨f1, f2, f3⟩ := consolidate_fields now seed (consolidate now seed m) e3
    rw [f1, e2, e1, pairsOf_map, foldl_linkStep_map_decay]
    exact foldl_linkStep_idem m.domainKnowledge m.relationships

/-- Witness for `c6_concept_linking`: the two-node memory `mC6`
(similarity `4/5`), linked once. -/
theorem c6_concept_linking_witness :
    ((knA, knB) ∈ pairsOf mC6.domainKnowledge
      ∧ (mC6.domainKnowledge.map KnowledgeNode.nid).Nodup
      ∧ (0.6 : ℚ) < conceptSimilarity knA knB
      ∧ mC6.relationships.countP (connB knA.nid knB.nid) = 0)
    ∧ (updateConceptRelationships mC6).relationships.countP
        (connB knA.nid knB.nid) = 1
    ∧ mkRel knA knB ∈ (updateConceptRelationships mC6).relationships := by
  have hpair : (knA, knB) ∈ pairsOf mC6.domainKnowledge :=
    List.mem_singleton.2 rfl
  have hnodup : (mC6.domainKnowledge.map KnowledgeNode.nid).Nodup := by decide
  have hsim : (0.6 : ℚ) < conceptSimilarity knA knB := by
    rw [show conceptSimilarity knA knB = ((4 : ℕ) : ℚ) / ((5 : ℕ) : ℚ) from rfl]
    norm_num
  have hnorel : mC6.relationships.countP (connB knA.nid knB.nid) = 0 := rfl
  have h := c6_concept_linking 0 0 mC6 knA knB hpair hnodup hsim hnorel
  exact ⟨⟨hpair, hnodup, hsim, hnorel⟩, h.1.1, h.1.2.1⟩

set_option maxHeartbeats 1600000 in
/-- **C7** (refuted — code bug): on a memory with three mutually similar
concept nodes, `compressMemory` throws inside `mergeSemanticConcepts`: the
`toMerge` index pairs refer to the original array while each merge splices
the live one, so the second processed pair reads a spliced-away slot
(`undefined.confidence`, a `TypeError`, modelled `Except.error`).
`cleanupRelationships` never runs, and the state left behind still holds a
relationship whose target concept id is no longer in `domainKnowledge`. -/
theorem c7_relationship_integrity_bug :
    compressMemory 0 mC7 = Except.error mC7post
    ∧ relC7 ∈ mC7post.relationships
    ∧ relC7.target ∉ mC7post.domainKnowledge.map KnowledgeNode.nid := by
  have hce : compressEpisodicMemory 0 mC7 = mC7 := rfl
  have h1 : (0.8 : ℚ) < conceptSimilarity knP knQ := by
    rw [show conceptSimilarity knP knQ = ((2 : ℕ) : ℚ) / ((2 : ℕ) : ℚ) from rfl]
    norm_num
  have h2 : (0.8 : ℚ) < conceptSimilarity knP knR := by
    rw [show conceptSimilarity knP knR = ((2 : ℕ) : ℚ) / ((2 : ℕ) : ℚ) from rfl]
    norm_num
  have h3 : (0.8 : ℚ) < conceptSimilarity knQ knR := by
    rw [show conceptSimilarity knQ knR = ((2 : ℕ) : ℚ) / ((2 : ℕ) : ℚ) from rfl]
    norm_num
  have hsp : simPairs mC7.domainKnowledge = [(0, 1), (0, 2), (1, 2)] := by
    simp [simPairs, mC7, emptyCMemory, pairsOf, List.enumFrom, h1, h2, h3]
  have hle : knR.confidence ≤ knQ.confidence := le_refl _
  have hml : mergeLoop [(1, 2), (0, 2), (0, 1)] [knP, knQ, knR] =
      Except.error [knP, mergedQR] := by
    simp [mergeLoop, mergeNodes, hle, List.set, List.eraseIdx]
    simp [knP, knQ, knR, mergedQR]
  have hmain : compressMemory 0 mC7 = Except.error mC7post := by
    unfold compressMemory
    rw [hce]
    unfold mergeSemanticConcepts
    rw [hsp,
      show ([(0, 1), (0, 2), (1, 2)] : List (ℕ × ℕ)).reverse
        = [(1, 2), (0, 2), (0, 1)] from rfl,
      show mC7.domainKnowledge = [knP, knQ, knR] from rfl, hml]
    rfl
  exact ⟨hmain, List.mem_singleton.2 rfl, by decide⟩

end MarketingMemory
